import Mathlib

/-!
Shallow embedding of the ElectronML gradient-boosted-tree inference runtime
(`XGBoostPredictor`) and its feature preprocessing pipeline (`DataPreprocessor`),
together with theorems settling the frozen claims about them.

JavaScript numbers are modelled as exact rationals extended with `NaN` and the
two infinities (`JSNum`); floating-point rounding is abstracted away, but the
discrete behaviours the claims are about (NaN checks, comparisons against NaN
and infinities, division by zero, the `-40` clamps) are modelled faithfully.
The unbounded `while` loop of tree traversal is modelled with explicit fuel;
`none` means the fuel ran out (which never happens on the finite trees the
claims quantify over).
-/

namespace ElectronML

/-- A JavaScript number: a finite rational, `NaN`, or an infinity. -/
inductive JSNum where
  | num (q : ℚ)
  | nan
  | posInf
  | negInf
deriving DecidableEq

/-- JS `isNaN(x)` for a number `x`. -/
def JSNum.isNaN : JSNum → Bool
  | .nan => true
  | _ => false

/-- JS comparison `x <= t` where `t` is a finite number: any comparison with
`NaN` is false, `Infinity <= t` is false, `-Infinity <= t` is true. -/
def JSNum.leQ : JSNum → ℚ → Bool
  | .num q, t => decide (q ≤ t)
  | .nan, _ => false
  | .posInf, _ => false
  | .negInf, _ => true

/-- One tree of the ensemble, as the parallel arrays of the model artifact
(`split_indices`, `split_conditions`, `left_children`, `right_children`,
`base_weights`). -/
structure TreeNode where
  split_indices : List ℤ
  split_conditions : List ℚ
  left_children : List ℤ
  right_children : List ℤ
  base_weights : List ℚ
deriving DecidableEq

/-- JS read `features[i]` for an integer index: out of range (in particular
negative) yields `undefined`, which behaves like `NaN` in the `<=` comparison
the traversal performs. -/
def jsFeature (features : List JSNum) (i : ℤ) : JSNum :=
  if 0 ≤ i then features.getD i.toNat .nan else .nan

/-- The body of `XGBoostPredictor.traverseTree`, with explicit fuel for the
`while (true)` loop.  `none` means the fuel ran out; `some (.error i)` is the
`Invalid feature index` exception carrying the offending index; `some (.ok w)`
is the leaf weight returned. -/
def traverseTreeAux (t : TreeNode) (features : List JSNum) :
    ℕ → ℕ → Option (Except ℤ ℚ)
  | 0, _ => none
  | fuel + 1, nodeIndex =>
    if t.left_children.getD nodeIndex 0 = -1 then
      some (.ok (t.base_weights.getD nodeIndex 0))
    else
      let featureIndex := t.split_indices.getD nodeIndex 0
      if (features.length : ℤ) ≤ featureIndex then
        some (.error featureIndex)
      else
        let next :=
          if (jsFeature features featureIndex).leQ (t.split_conditions.getD nodeIndex 0)
          then t.left_children.getD nodeIndex 0
          else t.right_children.getD nodeIndex 0
        traverseTreeAux t features fuel next.toNat

/-- `XGBoostPredictor.traverseTree`: traversal starting at node 0. -/
def traverseTree (fuel : ℕ) (t : TreeNode) (features : List JSNum) :
    Option (Except ℤ ℚ) :=
  traverseTreeAux t features fuel 0

/-- The memoization cache `treeCache`, keyed by `(treeIndex, features)` (the
source builds the string key from exactly these two components). -/
abbrev Cache := List ((ℕ × List JSNum) × ℚ)

/-- Lookup in the cache (first matching key wins). -/
def cacheLookup (c : Cache) (k : ℕ × List JSNum) : Option ℚ :=
  match c with
  | [] => none
  | (k', v) :: rest => if k' = k then some v else cacheLookup rest k

/-- `XGBoostPredictor.traverseTreeWithCache`: consult the cache, otherwise
traverse and store the result (errors are not cached, matching the source where
the exception propagates before `treeCache.set`). -/
def traverseTreeWithCache (fuel treeIndex : ℕ) (t : TreeNode)
    (features : List JSNum) (c : Cache) : Option (Except ℤ ℚ) × Cache :=
  match cacheLookup c (treeIndex, features) with
  | some v => (some (.ok v), c)
  | none =>
    match traverseTree fuel t features with
    | some (.ok v) => (some (.ok v), ((treeIndex, features), v) :: c)
    | r => (r, c)

/-- The predictor state after a successful construction, with the fields
`predict`/`predict_proba`/`getFeatureImportances` read. -/
structure XGBModel where
  numClasses : ℕ
  numFeatures : ℕ
  baseScore : ℚ
  trees : List TreeNode
  tree_info : List ℕ
deriving DecidableEq

/-- The loop over trees in `predictRaw`: traverse tree `i`, `i+1`, ... through
the cache, collecting the leaf weights in order; the first error aborts. -/
def traverseAll (fuel : ℕ) (features : List JSNum) :
    List TreeNode → ℕ → Cache → Option (Except ℤ (List ℚ)) × Cache
  | [], _, c => (some (.ok []), c)
  | t :: ts, i, c =>
    match traverseTreeWithCache fuel i t features c with
    | (some (.ok w), c') =>
      match traverseAll fuel features ts (i + 1) c' with
      | (some (.ok ws), c'') => (some (.ok (w :: ws)), c'')
      | r => r
    | (some (.error e), c') => (some (.error e), c')
    | (none, c') => (none, c')

/-- `margins[i] += w` on a list, as in the multiclass accumulation loop
(writes out of range are dropped). -/
def addAt (l : List ℚ) (i : ℕ) (w : ℚ) : List ℚ :=
  l.set i (l.getD i 0 + w)

/-- The multiclass accumulation: for each tree `i` in order, add its leaf
weight to `margins[tree_info[i]]`. -/
def accumulateMargins : List ℕ → List ℚ → List ℚ → List ℚ
  | ci :: info, w :: ws, acc => accumulateMargins info ws (addAt acc ci w)
  | _, _, acc => acc

/-- `XGBoostPredictor.predictRaw`: single-output ensembles return
`[baseScore + Σ leaf weights]`; multiclass ensembles return the per-class
accumulators (no base score added). -/
def predictRaw (fuel : ℕ) (m : XGBModel) (features : List JSNum) (c : Cache) :
    Option (Except ℤ (List ℚ)) × Cache :=
  match traverseAll fuel features m.trees 0 c with
  | (some (.ok ws), c') =>
    if m.numClasses = 1 then
      (some (.ok [m.baseScore + ws.sum]), c')
    else
      (some (.ok (accumulateMargins m.tree_info ws (List.replicate m.numClasses 0))), c')
  | (some (.error e), c') => (some (.error e), c')
  | (none, c') => (none, c')

/-- `XGBoostPredictor.sigmoid` with its `±40` clamps, over the reals. -/
noncomputable def sigmoid (x : ℝ) : ℝ :=
  if x < -40 then 0 else if x > 40 then 1 else 1 / (1 + Real.exp (-x))

/-- `Math.max(...l)` for a nonempty list (the empty case, `-Infinity` in JS,
is mapped to the irrelevant default `dflt`). -/
def jsMaxL {α : Type} [LinearOrder α] (dflt : α) : List α → α
  | [] => dflt
  | h :: t => t.foldl max h

/-- One exponentiated term of the stable softmax: shifted scores below `-40`
become exactly 0. -/
noncomputable def expTerm (maxScore s : ℚ) : ℝ :=
  if s - maxScore < -40 then 0 else Real.exp ((s : ℝ) - (maxScore : ℝ))

/-- The denominator `sumExp` of `XGBoostPredictor.softmax` before the
zero guard. -/
noncomputable def softmaxDenom (scores : List ℚ) : ℝ :=
  (scores.map (expTerm (jsMaxL 0 scores))).sum

/-- `XGBoostPredictor.softmax`: subtract the row max, exponentiate with the
`-40` cutoff, guard a zero denominator by substituting 1, normalize. -/
noncomputable def softmax (scores : List ℚ) : List ℝ :=
  let d := softmaxDenom scores
  let d' := if d = 0 then 1 else d
  (scores.map (expTerm (jsMaxL 0 scores))).map (fun e => e / d')

/-- The prediction-time errors of the predictor. -/
inductive PredErr where
  | invalidFeatureIndex (i : ℤ)
  | featureCount (expected got : ℕ)
  | invalidFeatureValue
deriving DecidableEq

/-- `XGBoostPredictor.validateFeatures`: wrong length first, then the
`typeof f === 'number' && !isNaN(f)` check (note: infinities pass). -/
def validateFeatures (numFeatures : ℕ) (features : List JSNum) : Option PredErr :=
  if features.length ≠ numFeatures then
    some (.featureCount numFeatures features.length)
  else if features.all (fun f => !f.isNaN) then none
  else some .invalidFeatureValue

/-- The link step of `predict_proba`: `[1 - p, p]` for a single output,
softmax otherwise. -/
noncomputable def probaOfMargins (m : XGBModel) (margins : List ℚ) : List ℝ :=
  if m.numClasses = 1 then
    [1 - sigmoid ((margins.getD 0 0 : ℚ) : ℝ), sigmoid ((margins.getD 0 0 : ℚ) : ℝ)]
  else softmax margins

/-- `XGBoostPredictor.predict_proba`. -/
noncomputable def predict_proba (fuel : ℕ) (m : XGBModel) (features : List JSNum)
    (c : Cache) : Option (Except PredErr (List ℝ)) × Cache :=
  match validateFeatures m.numFeatures features with
  | some e => (some (.error e), c)
  | none =>
    match predictRaw fuel m features c with
    | (some (.ok margins), c') => (some (.ok (probaOfMargins m margins)), c')
    | (some (.error e), c') => (some (.error (.invalidFeatureIndex e)), c')
    | (none, c') => (none, c')

/-- JS `Array.prototype.indexOf`: first index of `x`, `-1` if absent. -/
def jsIndexOf {α : Type} [DecidableEq α] : List α → α → ℤ
  | [], _ => -1
  | h :: t, x =>
    if h = x then 0
    else if jsIndexOf t x = -1 then -1 else jsIndexOf t x + 1

/-- The binary decision `probs[1] >= 0.5 ? 1 : 0` of `predict`. -/
noncomputable def classOfProbs (probs : List ℝ) : ℤ :=
  if (1 : ℝ) / 2 ≤ probs.getD 1 0 then 1 else 0

/-- The multiclass decision `margins.indexOf(Math.max(...margins))` of
`predict`. -/
def argmaxOfMargins (margins : List ℚ) : ℤ :=
  jsIndexOf margins (jsMaxL 0 margins)

/-- `XGBoostPredictor.predict`. -/
noncomputable def predict (fuel : ℕ) (m : XGBModel) (features : List JSNum)
    (c : Cache) : Option (Except PredErr ℤ) × Cache :=
  match validateFeatures m.numFeatures features with
  | some e => (some (.error e), c)
  | none =>
    if m.numClasses = 1 then
      match predict_proba fuel m features c with
      | (some (.ok probs), c') => (some (.ok (classOfProbs probs)), c')
      | (some (.error e), c') => (some (.error e), c')
      | (none, c') => (none, c')
    else
      match predictRaw fuel m features c with
      | (some (.ok margins), c') => (some (.ok (argmaxOfMargins margins)), c')
      | (some (.error e), c') => (some (.error (.invalidFeatureIndex e)), c')
      | (none, c') => (none, c')

/-- `importances[i]++` on a list of rationals. -/
def incAt (l : List ℚ) (i : ℕ) : List ℚ :=
  l.set i (l.getD i 0 + 1)

/-- The body of the counting loop of `getFeatureImportances`: a
`split_indices` entry in `[0, numFeatures)` increments its feature's
counter. -/
def incStep (numFeatures : ℕ) (acc : List ℚ) (fi : ℤ) : List ℚ :=
  if 0 ≤ fi ∧ fi < (numFeatures : ℤ) then incAt acc fi.toNat else acc

/-- The counting loops of `getFeatureImportances`: every entry of every tree's
`split_indices` (leaves included) is run through `incStep`. -/
def countSplits (numFeatures : ℕ) (trees : List TreeNode) : List ℚ :=
  trees.foldl (fun acc t => t.split_indices.foldl (incStep numFeatures) acc)
    (List.replicate numFeatures 0)

/-- `XGBoostPredictor.getFeatureImportances`. -/
def getFeatureImportances (m : XGBModel) : List ℚ :=
  let importances := countSplits m.numFeatures m.trees
  let s := importances.sum
  importances.map (fun v => if 0 < s then v / s else 0)

/-- JS subtraction on numbers (`NaN` absorbs; `∞ - ∞ = NaN`). -/
def jsSub : JSNum → JSNum → JSNum
  | .nan, _ => .nan
  | .num _, .nan => .nan
  | .posInf, .nan => .nan
  | .negInf, .nan => .nan
  | .num a, .num b => .num (a - b)
  | .num _, .posInf => .negInf
  | .num _, .negInf => .posInf
  | .posInf, .posInf => .nan
  | .posInf, .num _ => .posInf
  | .posInf, .negInf => .posInf
  | .negInf, .negInf => .nan
  | .negInf, .num _ => .negInf
  | .negInf, .posInf => .negInf

/-- JS division on numbers (`NaN` absorbs; `x / 0` is `±∞` for `x ≠ 0` and
`NaN` for `0 / 0`; `∞ / ∞ = NaN`; the sign of zero is not modelled). -/
def jsDivJ : JSNum → JSNum → JSNum
  | .nan, _ => .nan
  | .num _, .nan => .nan
  | .posInf, .nan => .nan
  | .negInf, .nan => .nan
  | .num a, .num b =>
    if b = 0 then (if a = 0 then .nan else if 0 < a then .posInf else .negInf)
    else .num (a / b)
  | .num _, .posInf => .num 0
  | .num _, .negInf => .num 0
  | .posInf, .num b => if 0 ≤ b then .posInf else .negInf
  | .negInf, .num b => if 0 ≤ b then .negInf else .posInf
  | .posInf, .posInf => .nan
  | .posInf, .negInf => .nan
  | .negInf, .posInf => .nan
  | .negInf, .negInf => .nan

/-- An absent (undefined) scaling parameter behaves as `NaN` in arithmetic. -/
def optToJS : Option ℚ → JSNum
  | some q => .num q
  | none => .nan

/-- Leading decimal digits of a character list: the parsed value and the rest,
or `none` if the first character is not a digit. -/
def parseDigits (cs : List Char) : Option (ℕ × List Char) :=
  let ds := cs.takeWhile Char.isDigit
  if ds.isEmpty then none
  else some (ds.foldl (fun acc c => acc * 10 + (c.toNat - 48)) 0, cs.dropWhile Char.isDigit)

/-- Characters JS treats as trimmable whitespace (the common ones). -/
def isJsSpace (c : Char) : Bool :=
  c = ' ' ∨ c = '\t' ∨ c = '\n' ∨ c = '\r'

/-- JS `parseInt(s)` restricted to base-10 inputs: skip leading whitespace,
optional sign, longest digit prefix; `none` models the `NaN` result. -/
def parseIntJS (s : String) : Option ℤ :=
  let cs := s.data.dropWhile isJsSpace
  match cs with
  | '-' :: rest => (parseDigits rest).map (fun p => -(p.1 : ℤ))
  | '+' :: rest => (parseDigits rest).map (fun p => (p.1 : ℤ))
  | _ => (parseDigits cs).map (fun p => (p.1 : ℤ))

/-- An unsigned decimal literal `digits [. digits]` at the head of `cs`:
its value and the rest, or `none` when no digit is present at all. -/
def parseDecimal (cs : List Char) : Option (ℚ × List Char) :=
  match parseDigits cs with
  | some (n, rest) =>
    match rest with
    | '.' :: rest2 =>
      match parseDigits rest2 with
      | some (frac, rest3) =>
        some ((n : ℚ) + (frac : ℚ) / ((10 : ℚ) ^ (rest2.takeWhile Char.isDigit).length), rest3)
      | none => some ((n : ℚ), rest2)
    | _ => some ((n : ℚ), rest)
  | none =>
    match cs with
    | '.' :: rest2 =>
      match parseDigits rest2 with
      | some (frac, rest3) =>
        some ((frac : ℚ) / ((10 : ℚ) ^ (rest2.takeWhile Char.isDigit).length), rest3)
      | none => none
    | _ => none

/-- JS `parseFloat(s)` restricted to plain decimal literals: skip leading
whitespace, optional sign, decimal number; trailing garbage is ignored;
`none` models the `NaN` result. -/
def parseFloatJS (s : String) : Option ℚ :=
  let cs := s.data.dropWhile isJsSpace
  match cs with
  | '-' :: rest => (parseDecimal rest).map (fun p => -p.1)
  | '+' :: rest => (parseDecimal rest).map (fun p => p.1)
  | _ => (parseDecimal cs).map (fun p => p.1)

/-- JS `Number(s)` for a string, restricted to plain decimal literals and the
infinity spellings: the whole (trimmed) string must be consumed; the empty
string is `0`; anything else is `NaN`. -/
def jsNumberOfString (s : String) : JSNum :=
  let cs := (s.data.dropWhile isJsSpace).reverse.dropWhile isJsSpace |>.reverse
  if cs.isEmpty then .num 0
  else if cs = "Infinity".data ∨ cs = "+Infinity".data then .posInf
  else if cs = "-Infinity".data then .negInf
  else
    let signed : Option (ℚ × List Char) :=
      match cs with
      | '-' :: rest => (parseDecimal rest).map (fun p => (-p.1, p.2))
      | '+' :: rest => parseDecimal rest
      | _ => parseDecimal cs
    match signed with
    | some (q, []) => .num q
    | _ => .nan

/-- A raw value of an input record (`Record<string, string | number>`). -/
inductive RawValue where
  | str (s : String)
  | num (x : JSNum)
deriving DecidableEq

/-- JS `Number(value)` for a record value. -/
def jsNumber : RawValue → JSNum
  | .str s => jsNumberOfString s
  | .num x => x

/-- The smallest `k` (within the fuel) with `den ∣ 10 ^ k`: the length of the
terminating decimal expansion of a fraction with denominator `den`. -/
def findDecExpAux (den : ℕ) : ℕ → ℕ → Option ℕ
  | 0, _ => none
  | fuel + 1, k => if den ∣ 10 ^ k then some k else findDecExpAux den fuel (k + 1)

/-- JS number-to-string for a finite value: an integer prints without a
point (`String(5) = "5"`), and a value with a terminating decimal expansion
(every double has one, being dyadic) prints sign, integer part and fraction
digits with trailing zeros dropped (`String(1.5) = "1.5"`,
`String(0.25) = "0.25"`).  The non-terminating case cannot arise from a
double; it prints an inert fraction form. -/
def ratToString (q : ℚ) : String :=
  if q.den = 1 then toString q.num
  else
    match findDecExpAux q.den 64 0 with
    | some k =>
      let v := q.num.natAbs * 10 ^ k / q.den
      let ip := v / 10 ^ k
      let fsRaw := toString (v % 10 ^ k)
      let fs := String.mk (List.replicate (k - fsRaw.length) '0' ++ fsRaw.data)
      let fs2 := String.mk ((fs.data.reverse.dropWhile (fun c => c = '0')).reverse)
      (if q.num < 0 then "-" else "") ++ toString ip ++
        (if fs2 = "" then "" else "." ++ fs2)
    | none => toString q.num ++ "/" ++ toString q.den

/-- The numeric value of an all-digit key. -/
def digitsVal (cs : List Char) : ℕ :=
  cs.foldl (fun acc c => acc * 10 + (c.toNat - 48)) 0

/-- ECMAScript array-index property keys: canonical all-digit strings with no
leading zero whose numeric value is below 2^32 - 1.  These are enumerated
before all other keys by `Object.keys`. -/
def isArrayIndexKey (s : String) : Bool :=
  match s.data with
  | [] => false
  | ['0'] => true
  | '0' :: _ => false
  | cs => cs.all Char.isDigit && decide (digitsVal cs < 4294967295)

/-- Insert a key into a list of array-index keys kept in ascending numeric
order. -/
def insertAscKey (k : String) : List String → List String
  | [] => [k]
  | x :: xs =>
    if digitsVal k.data ≤ digitsVal x.data then k :: x :: xs
    else x :: insertAscKey k xs

/-- Sort array-index keys into ascending numeric order. -/
def sortAscKeys : List String → List String
  | [] => []
  | x :: xs => insertAscKey x (sortAscKeys xs)

/-- JS `Object.keys` on an object built in the list's order: array-index keys
in ascending numeric order first, then the remaining string keys in insertion
order. -/
def jsObjectKeys {β : Type} (l : List (String × β)) : List String :=
  sortAscKeys ((l.map Prod.fst).filter isArrayIndexKey) ++
    (l.map Prod.fst).filter (fun k => !(isArrayIndexKey k))

/-- `Object.keys(mapping)[0]`: the first key in JS own-property order. -/
def firstObjectKey {β : Type} (l : List (String × β)) : Option String :=
  (jsObjectKeys l).head?

/-- JS `String(value)` for a record value. -/
def jsToString : RawValue → String
  | .str s => s
  | .num (.num q) => ratToString q
  | .num .nan => "NaN"
  | .num .posInf => "Infinity"
  | .num .negInf => "-Infinity"

/-- Association-list lookup by key (JS object property access). -/
def alookup {β : Type} : List (String × β) → String → Option β
  | [], _ => none
  | (k, v) :: rest, key => if k = key then some v else alookup rest key

/-- Scaling parameters of one numeric feature (any subset may be present). -/
structure NumericParams where
  mean : Option ℚ
  scale : Option ℚ
  min : Option ℚ
deriving DecidableEq

/-- The `scaling_method` field. -/
inductive ScalingMethod where
  | standard
  | minmax
deriving DecidableEq

/-- The parsed `PipelineMetadata` of the preprocessor; the two feature maps
keep JS object insertion order. -/
structure PipelineMetadata where
  features : List String
  categorical_features : List (String × List (String × ℚ))
  numeric_features : List (String × NumericParams)
  scaling_method : ScalingMethod
deriving DecidableEq

/-- An input record for `transform`. -/
abbrev InputRecord := List (String × RawValue)

/-- The preprocessing-time errors. -/
inductive PreErr where
  | missingFeatures (names : List String)
  | invalidNumericValue (feature : String)
deriving DecidableEq

/-- The per-feature body of `DataPreprocessor.transform`: a categorical
feature emits its code; an unseen value falls back to
`mapping[Object.keys(mapping)[0]]`, the code of the first key in JS
own-property order (the `undefined`-like `NaN` on an empty map); a numeric
feature coerces, fails on `NaN`, and applies the scaling rule; a feature in
neither map emits nothing. -/
def transformValue (md : PipelineMetadata) (feature : String) (value : RawValue) :
    Except PreErr (List JSNum) :=
  match alookup md.categorical_features feature with
  | some mapping =>
    let strValue := jsToString value
    let encoded : JSNum :=
      match alookup mapping strValue with
      | some code => .num code
      | none =>
        match firstObjectKey mapping with
        | some k =>
          match alookup mapping k with
          | some code => .num code
          | none => .nan
        | none => .nan
    .ok [encoded]
  | none =>
    match alookup md.numeric_features feature with
    | some params =>
      let numValue := jsNumber value
      if numValue.isNaN then .error (.invalidNumericValue feature)
      else
        match md.scaling_method with
        | .standard => .ok [jsDivJ (jsSub numValue (optToJS params.mean)) (optToJS params.scale)]
        | .minmax => .ok [jsDivJ (jsSub numValue (optToJS params.min)) (optToJS params.scale)]
    | none => .ok []

/-- The main loop of `transform` over the ordered feature list: each feature
appends its emitted values, and the first error propagates. -/
def transformList (md : PipelineMetadata) (input : InputRecord) :
    List String → Except PreErr (List JSNum)
  | [] => .ok []
  | f :: fs =>
    match transformValue md f ((alookup input f).getD (RawValue.num .nan)) with
    | .error e => .error e
    | .ok vs =>
      match transformList md input fs with
      | .error e => .error e
      | .ok rest => .ok (vs ++ rest)

/-- `DataPreprocessor.transform`: first the missing-feature check (listing
every offending name, in declared order), then the per-feature loop. -/
def transform (md : PipelineMetadata) (input : InputRecord) :
    Except PreErr (List JSNum) :=
  let missing := md.features.filter (fun f => (alookup input f).isNone)
  if missing.isEmpty then transformList md input md.features
  else .error (.missingFeatures missing)

/-- The `tree_param` block of a serialized tree, as far as the constructor
reads it (`num_feature` may itself be absent). -/
structure TreeParamR where
  num_feature : Option String
deriving DecidableEq

/-- A serialized tree as the constructor sees it: the node arrays plus an
optional `tree_param` block (an absent block makes the constructor's field
access throw). -/
structure RawTree where
  split_indices : List ℤ
  split_conditions : List ℚ
  left_children : List ℤ
  right_children : List ℤ
  base_weights : List ℚ
  tree_param : Option TreeParamR
deriving DecidableEq

/-- The parsed model document as the constructor reads it; `none` fields model
absent JSON paths. -/
structure RawModelDoc where
  objectiveName : Option String
  numClassStr : Option String
  trees : List RawTree
  treeInfo : List ℤ
  baseScoreStr : Option String
deriving DecidableEq

/-- The construction-time error (`Failed to initialize XGBoost model`). -/
inductive ModelFormatE where
  | modelFormat
deriving DecidableEq

/-- The state an `XGBoostPredictor` holds after construction; `none` in a
numeric field models `NaN` (an unparseable string fed to `parseInt` or
`parseFloat`). -/
structure PredictorState where
  objective : String
  numClasses : Option ℤ
  numFeatures : Option ℤ
  baseScore : Option ℚ
  trees : List RawTree
  treeInfo : List ℤ
deriving DecidableEq

/-- The `XGBoostPredictor` constructor: the argument is `none` when
`JSON.parse` throws.  It fails when the objective name is absent (or empty,
which is falsy) or when the tree list is empty or the first tree lacks its
`tree_param` block; an unparseable `num_feature` does NOT fail — it leaves a
`NaN` feature count. -/
def constructPredictor (doc : Option RawModelDoc) :
    Except ModelFormatE PredictorState :=
  match doc with
  | none => .error .modelFormat
  | some d =>
    match d.objectiveName with
    | none => .error .modelFormat
    | some nm =>
      if nm = "" then .error .modelFormat
      else
        let numClasses : Option ℤ :=
          if nm = "multi:softmax" ∨ nm = "multi:softprob" then
            parseIntJS (match d.numClassStr with
                        | some s => if s = "" then "2" else s
                        | none => "2")
          else some 1
        match d.trees with
        | [] => .error .modelFormat
        | t0 :: _ =>
          match t0.tree_param with
          | none => .error .modelFormat
          | some tp =>
            let numFeatures : Option ℤ :=
              match tp.num_feature with
              | none => none
              | some s => parseIntJS s
            let baseScore : Option ℚ :=
              parseFloatJS (match d.baseScoreStr with
                            | some s => if s = "" then "0.5" else s
                            | none => "0.5")
            .ok { objective := nm
                  numClasses := numClasses
                  numFeatures := numFeatures
                  baseScore := baseScore
                  trees := d.trees
                  treeInfo := d.treeInfo }

deriving instance DecidableEq for Except

/-! Concrete models used by the spec's worked examples and as witnesses. -/

/-- The 1-tree binary example of the spec: root split on feature 0 at
threshold 10, left leaf weight -1.0, right leaf weight 1.0. -/
def exTree : TreeNode :=
  { split_indices := [0, 0, 0]
    split_conditions := [10, 0, 0]
    left_children := [1, -1, -1]
    right_children := [2, -1, -1]
    base_weights := [0, -1, 1] }

/-- The 1-tree binary example ensemble with `baseScore = 0.5`. -/
def exModel : XGBModel :=
  { numClasses := 1, numFeatures := 1, baseScore := 1/2
    trees := [exTree], tree_info := [0] }

/-- A tree that is a single leaf whose (meaningless) `split_indices` entry is
0, as the artifact format stores for leaves. -/
def leafTree : TreeNode :=
  { split_indices := [0], split_conditions := [0]
    left_children := [-1], right_children := [-1], base_weights := [5] }

/-- A valid ensemble with no internal splits at all. -/
def mLeaf : XGBModel :=
  { numClasses := 1, numFeatures := 1, baseScore := 0
    trees := [leafTree], tree_info := [0] }

/-- Metadata whose single ordered feature is declared neither categorical nor
numeric. -/
def md0 : PipelineMetadata :=
  { features := ["a"], categorical_features := [], numeric_features := []
    scaling_method := .standard }

/-- Metadata with one categorical feature with three declared categories. -/
def md1 : PipelineMetadata :=
  { features := ["color"]
    categorical_features := [("color", [("red", 0), ("green", 1), ("blue", 2)])]
    numeric_features := []
    scaling_method := .standard }

/-- Metadata whose category map declares a non-integer label first and an
array-index-like label "2" second: JS enumerates "2" before "red". -/
def md3 : PipelineMetadata :=
  { features := ["color"]
    categorical_features := [("color", [("red", 0), ("2", 7)])]
    numeric_features := []
    scaling_method := .standard }

/-- Metadata with one standard-scaled numeric feature whose parameter block
lacks `mean`. -/
def md2 : PipelineMetadata :=
  { features := ["x"], categorical_features := []
    numeric_features := [("x", { mean := none, scale := some 2, min := none })]
    scaling_method := .standard }

/-- A model document whose first tree's `num_feature` is unparseable. -/
def badDoc : RawModelDoc :=
  { objectiveName := some "binary:logistic"
    numClassStr := none
    trees := [{ split_indices := [], split_conditions := [], left_children := []
                right_children := [], base_weights := []
                tree_param := some { num_feature := some "abc" } }]
    treeInfo := []
    baseScoreStr := none }

/-! The traversal relation of claim C2, stated in the claim's own terms. -/

/-- The traversal procedure the spec describes, as a relation: at a node whose
left child is the sentinel return the leaf weight; at an internal node whose
split feature is out of range fail; otherwise descend left exactly when
`features[splitFeature] <= splitThreshold`, else right. -/
inductive TraverseSpec (t : TreeNode) (features : List JSNum) :
    ℕ → Except ℤ ℚ → Prop where
  | leaf (n : ℕ) (h : t.left_children.getD n 0 = -1) :
      TraverseSpec t features n (.ok (t.base_weights.getD n 0))
  | badIndex (n : ℕ) (h : ¬ t.left_children.getD n 0 = -1)
      (hge : (features.length : ℤ) ≤ t.split_indices.getD n 0) :
      TraverseSpec t features n (.error (t.split_indices.getD n 0))
  | stepLeft (n : ℕ) (r : Except ℤ ℚ) (h : ¬ t.left_children.getD n 0 = -1)
      (hlt : ¬ (features.length : ℤ) ≤ t.split_indices.getD n 0)
      (hcmp : (jsFeature features (t.split_indices.getD n 0)).leQ
        (t.split_conditions.getD n 0) = true)
      (hr : TraverseSpec t features (t.left_children.getD n 0).toNat r) :
      TraverseSpec t features n r
  | stepRight (n : ℕ) (r : Except ℤ ℚ) (h : ¬ t.left_children.getD n 0 = -1)
      (hlt : ¬ (features.length : ℤ) ≤ t.split_indices.getD n 0)
      (hcmp : (jsFeature features (t.split_indices.getD n 0)).leQ
        (t.split_conditions.getD n 0) = false)
      (hr : TraverseSpec t features (t.right_children.getD n 0).toNat r) :
      TraverseSpec t features n r

/-- C2: tree traversal starts at node 0 and repeatedly either returns the
current node's leaf weight (when the left child is the sentinel -1), fails
with the invalid-feature-index error (when the split feature index is ≥ the
input length), or descends left exactly when
`features[splitFeature[node]] <= splitThreshold[node]` and right otherwise:
the fuelled loop body agrees with this description in both directions. -/
theorem traverseTree_spec (t : TreeNode) (features : List JSNum) :
    (∀ fuel r, traverseTree fuel t features = some r →
       TraverseSpec t features 0 r) ∧
    (∀ fuel n r, traverseTreeAux t features fuel n = some r →
       TraverseSpec t features n r) ∧
    (∀ n r, TraverseSpec t features n r →
       ∃ fuel, traverseTreeAux t features fuel n = some r) := by
  have fwd : ∀ fuel n r, traverseTreeAux t features fuel n = some r →
      TraverseSpec t features n r := by
    intro fuel
    induction fuel with
    | zero => intro n r h; simp [traverseTreeAux] at h
    | succ k ih =>
      intro n r h
      rw [traverseTreeAux] at h
      by_cases hleaf : t.left_children.getD n 0 = -1
      · rw [if_pos hleaf] at h
        cases h
        exact .leaf n hleaf
      · rw [if_neg hleaf] at h
        simp only at h
        by_cases hge : (features.length : ℤ) ≤ t.split_indices.getD n 0
        · rw [if_pos hge] at h
          cases h
          exact .badIndex n hleaf hge
        · rw [if_neg hge] at h
          by_cases hcmp : (jsFeature features (t.split_indices.getD n 0)).leQ
              (t.split_conditions.getD n 0) = true
          · rw [if_pos hcmp] at h
            exact .stepLeft n r hleaf hge hcmp (ih _ _ h)
          · rw [if_neg hcmp] at h
            exact .stepRight n r hleaf hge (Bool.not_eq_true _ ▸ hcmp) (ih _ _ h)
  refine ⟨fun fuel r h => fwd fuel 0 r h, fwd, ?_⟩
  intro n r hspec
  induction hspec with
  | leaf n h => exact ⟨1, by rw [traverseTreeAux, if_pos h]⟩
  | badIndex n h hge =>
    exact ⟨1, by rw [traverseTreeAux, if_neg h]; simp only [if_pos hge]⟩
  | stepLeft n r h hlt hcmp hr ih =>
    obtain ⟨fuel, hf⟩ := ih
    refine ⟨fuel + 1, ?_⟩
    rw [traverseTreeAux, if_neg h]
    simp only [if_neg hlt, if_pos hcmp]
    exact hf
  | stepRight n r h hlt hcmp hr ih =>
    obtain ⟨fuel, hf⟩ := ih
    refine ⟨fuel + 1, ?_⟩
    rw [traverseTreeAux, if_neg h]
    simp only [if_neg hlt, hcmp, if_neg (Bool.false_ne_true)]
    exact hf

/-- The forward direction of `traverseTree_spec` applied to the spec's example
tree on input `[5]` (which reaches the left leaf, weight -1). -/
theorem traverseTree_spec_witness :
    TraverseSpec exTree [JSNum.num 5] 0 (.ok (-1)) :=
  (traverseTree_spec exTree [JSNum.num 5]).1 2 (.ok (-1)) (by decide)

/-! Margin accumulation (claim C1). -/

/-- The sum of the leaf weights of exactly those trees mapped to class `k`
by `tree_info`, as the claim states the multiclass margin. -/
def classSum (k : ℕ) : List ℕ → List ℚ → ℚ
  | ci :: info, w :: ws => (if ci = k then w else 0) + classSum k info ws
  | _, _ => 0

theorem traverseAll_cons_ok (fuel : ℕ) (features : List JSNum) (t : TreeNode)
    (ts : List TreeNode) (i : ℕ) (c : Cache) (w : ℚ) (c₁ : Cache)
    (h : traverseTreeWithCache fuel i t features c = (some (.ok w), c₁)) :
    traverseAll fuel features (t :: ts) i c =
      match traverseAll fuel features ts (i + 1) c₁ with
      | (some (.ok ws), c'') => (some (.ok (w :: ws)), c'')
      | r => r := by
  rw [traverseAll, h]

theorem cacheLookup_none {c : Cache} {k : ℕ × List JSNum}
    (h : ∀ e ∈ c, e.1.1 ≠ k.1) : cacheLookup c k = none := by
  induction c with
  | nil => rfl
  | cons e rest ih =>
    rw [cacheLookup]
    have hne : e.1 ≠ k := fun he => h e (by simp) (by rw [he])
    rw [if_neg hne]
    exact ih fun e' he' => h e' (List.mem_cons_of_mem _ he')

/-- On a cache whose keys all have tree index below `i`, the tree loop
starting at tree `i` returns exactly the pure traversal results. -/
theorem traverseAll_fresh (fuel : ℕ) (features : List JSNum) :
    ∀ (ts : List TreeNode) (ws : List ℚ) (i : ℕ) (c : Cache),
      (∀ e ∈ c, e.1.1 < i) →
      List.Forall₂ (fun t w => traverseTree fuel t features = some (.ok w)) ts ws →
      ∃ c', traverseAll fuel features ts i c = (some (.ok ws), c') ∧
        ∀ e ∈ c', e.1.1 < i + ts.length := by
  intro ts
  induction ts with
  | nil =>
    intro ws i c hc hfa
    cases hfa
    exact ⟨c, rfl, by simpa using hc⟩
  | cons t ts ih =>
    intro ws i c hc hfa
    cases hfa with
    | cons hw hrest =>
      rename_i w ws'
      have hmiss : cacheLookup c (i, features) = none :=
        cacheLookup_none fun e he => Nat.ne_of_lt (hc e he)
      have hcache' : ∀ e ∈ (((i, features), w) :: c), e.1.1 < i + 1 := by
        intro e he
        rcases List.mem_cons.1 he with rfl | he'
        · exact Nat.lt_succ_self i
        · exact Nat.lt_succ_of_lt (hc e he')
      obtain ⟨c', hall, hbound⟩ := ih ws' (i + 1) (((i, features), w) :: c) hcache' hrest
      refine ⟨c', ?_, ?_⟩
      · have hstep : traverseTreeWithCache fuel i t features c =
            (some (.ok w), ((i, features), w) :: c) := by
          rw [traverseTreeWithCache, hmiss, hw]
        rw [traverseAll_cons_ok fuel features t ts i c w _ hstep, hall]
      · intro e he
        have := hbound e he
        simp only [List.length_cons]
        omega

theorem addAt_length (l : List ℚ) (i : ℕ) (w : ℚ) :
    (addAt l i w).length = l.length := by
  simp [addAt]

theorem accumulateMargins_length :
    ∀ (info : List ℕ) (ws acc : List ℚ),
      (accumulateMargins info ws acc).length = acc.length := by
  intro info
  induction info with
  | nil => intro ws acc; cases ws <;> rfl
  | cons ci info ih =>
    intro ws acc
    cases ws with
    | nil => rfl
    | cons w ws' => rw [accumulateMargins, ih, addAt_length]

theorem addAt_getD_self {l : List ℚ} {i : ℕ} (hi : i < l.length) (w : ℚ) :
    (addAt l i w).getD i 0 = l.getD i 0 + w := by
  simp [addAt, List.getD_eq_getElem?_getD, List.getElem?_set_self, hi,
    List.getElem?_eq_getElem]

theorem addAt_getD_ne {l : List ℚ} {i j : ℕ} (hij : i ≠ j) (w : ℚ) :
    (addAt l i w).getD j 0 = l.getD j 0 := by
  simp [addAt, List.getD_eq_getElem?_getD, List.getElem?_set_ne hij]

theorem accumulateMargins_getD (k : ℕ) :
    ∀ (info : List ℕ) (ws acc : List ℚ), k < acc.length →
      (accumulateMargins info ws acc).getD k 0 =
        acc.getD k 0 + classSum k info ws := by
  intro info
  induction info with
  | nil => intro ws acc _; cases ws <;> simp [accumulateMargins, classSum]
  | cons ci info ih =>
    intro ws acc hk
    cases ws with
    | nil => simp [accumulateMargins, classSum]
    | cons w ws' =>
      rw [accumulateMargins, classSum,
        ih ws' (addAt acc ci w) (by rw [addAt_length]; exact hk)]
      by_cases hci : ci = k
      · subst hci
        rw [addAt_getD_self hk, add_assoc]
        simp
      · rw [addAt_getD_ne hci, if_neg hci, zero_add]

theorem sigmoid_nonneg (x : ℝ) : 0 ≤ sigmoid x := by
  unfold sigmoid
  split
  · exact le_refl 0
  split
  · exact zero_le_one
  · positivity

theorem sigmoid_le_one (x : ℝ) : sigmoid x ≤ 1 := by
  unfold sigmoid
  split
  · exact zero_le_one
  split
  · exact le_refl 1
  · rw [div_le_one (by positivity)]
    have := Real.exp_pos (-x)
    linarith

theorem sigmoid_lt_half {x : ℝ} (hx : x < 0) : sigmoid x < 1 / 2 := by
  unfold sigmoid
  split
  · norm_num
  rw [if_neg (by linarith)]
  rw [div_lt_div_iff (by positivity) (by norm_num)]
  have h1 : (1 : ℝ) < Real.exp (-x) := by
    rw [← Real.exp_zero]
    exact Real.exp_lt_exp.2 (by linarith)
  linarith

theorem half_le_sigmoid {x : ℝ} (hx : 0 ≤ x) : 1 / 2 ≤ sigmoid x := by
  unfold sigmoid
  rw [if_neg (by linarith)]
  split
  · norm_num
  rw [div_le_div_iff (by norm_num) (by positivity)]
  have h1 : Real.exp (-x) ≤ 1 := by
    rw [← Real.exp_zero]
    exact Real.exp_le_exp.2 (by linarith)
  linarith

theorem predict_proba_eq_of (fuel : ℕ) (m : XGBModel) (features : List JSNum)
    (c : Cache) (margins : List ℚ) (c' : Cache)
    (hval : validateFeatures m.numFeatures features = none)
    (hraw : predictRaw fuel m features c = (some (.ok margins), c')) :
    predict_proba fuel m features c =
      (some (.ok (probaOfMargins m margins)), c') := by
  unfold predict_proba
  rw [hval, hraw]

theorem predict_eq_of_single (fuel : ℕ) (m : XGBModel) (features : List JSNum)
    (c : Cache) (margins : List ℚ) (c' : Cache)
    (h1 : m.numClasses = 1)
    (hval : validateFeatures m.numFeatures features = none)
    (hraw : predictRaw fuel m features c = (some (.ok margins), c')) :
    predict fuel m features c =
      (some (.ok (classOfProbs (probaOfMargins m margins))), c') := by
  unfold predict
  rw [hval, if_pos h1, predict_proba_eq_of fuel m features c margins c' hval hraw]

theorem predict_eq_of_multi (fuel : ℕ) (m : XGBModel) (features : List JSNum)
    (c : Cache) (margins : List ℚ) (c' : Cache)
    (h1 : ¬ m.numClasses = 1)
    (hval : validateFeatures m.numFeatures features = none)
    (hraw : predictRaw fuel m features c = (some (.ok margins), c')) :
    predict fuel m features c = (some (.ok (argmaxOfMargins margins)), c') := by
  unfold predict
  rw [hval, if_neg h1, hraw]

theorem predictRaw_of_traverseAll (fuel : ℕ) (m : XGBModel) (features : List JSNum)
    (c : Cache) (ws : List ℚ) (c' : Cache)
    (hall : traverseAll fuel features m.trees 0 c = (some (.ok ws), c')) :
    predictRaw fuel m features c =
      if m.numClasses = 1 then (some (.ok [m.baseScore + ws.sum]), c')
      else (some (.ok (accumulateMargins m.tree_info ws
        (List.replicate m.numClasses 0))), c') := by
  rw [predictRaw, hall]

theorem classOfProbs_single (m : XGBModel) (h1 : m.numClasses = 1) (q : ℚ) :
    classOfProbs (probaOfMargins m [q]) =
      if (1 : ℝ) / 2 ≤ sigmoid ((q : ℚ) : ℝ) then 1 else 0 := by
  unfold probaOfMargins classOfProbs
  rw [if_pos h1]
  simp only [List.getD_cons_succ, List.getD_cons_zero]

/-- C1: a single-output ensemble's raw margin is `baseScore` plus the sum of
the reached leaf weights over all trees; a multiclass ensemble's margin for
class `k` is the sum of the reached leaf weights of exactly the trees `i` with
`tree_info[i] = k`, with no base-score term; and on the spec's 1-tree binary
example, input `[5]` yields margin `-0.5` and `predict = 0`, and input `[15]`
yields margin `1.5` and `predict = 1`. -/
theorem predictRaw_margins :
    (∀ (fuel : ℕ) (m : XGBModel) (features : List JSNum) (ws : List ℚ),
       m.numClasses = 1 →
       List.Forall₂ (fun t w => traverseTree fuel t features = some (.ok w))
         m.trees ws →
       ∃ c', predictRaw fuel m features [] =
         (some (.ok [m.baseScore + ws.sum]), c')) ∧
    (∀ (fuel : ℕ) (m : XGBModel) (features : List JSNum) (ws : List ℚ) (k : ℕ),
       2 ≤ m.numClasses →
       List.Forall₂ (fun t w => traverseTree fuel t features = some (.ok w))
         m.trees ws →
       k < m.numClasses →
       ∃ c' margins, predictRaw fuel m features [] = (some (.ok margins), c') ∧
         margins.length = m.numClasses ∧
         margins.getD k 0 = classSum k m.tree_info ws) ∧
    ((predictRaw 2 exModel [JSNum.num 5] []).1 = some (.ok [-(1/2)]) ∧
     (predict 2 exModel [JSNum.num 5] []).1 = some (.ok 0) ∧
     (predictRaw 2 exModel [JSNum.num 15] []).1 = some (.ok [3/2]) ∧
     (predict 2 exModel [JSNum.num 15] []).1 = some (.ok 1)) := by
  have hall5 : traverseAll 2 [JSNum.num 5] exModel.trees 0 [] =
      (some (.ok [-1]), [((0, [JSNum.num 5]), -1)]) := by decide
  have hall15 : traverseAll 2 [JSNum.num 15] exModel.trees 0 [] =
      (some (.ok [1]), [((0, [JSNum.num 15]), 1)]) := by decide
  have hraw5 : predictRaw 2 exModel [JSNum.num 5] [] =
      (some (.ok [-(1/2)]), [((0, [JSNum.num 5]), -1)]) := by
    rw [predictRaw_of_traverseAll 2 exModel [JSNum.num 5] [] [-1] _ hall5,
      if_pos (show exModel.numClasses = 1 from rfl)]
    norm_num [exModel, List.sum_cons, List.sum_nil]
  have hraw15 : predictRaw 2 exModel [JSNum.num 15] [] =
      (some (.ok [3/2]), [((0, [JSNum.num 15]), 1)]) := by
    rw [predictRaw_of_traverseAll 2 exModel [JSNum.num 15] [] [1] _ hall15,
      if_pos (show exModel.numClasses = 1 from rfl)]
    norm_num [exModel, List.sum_cons, List.sum_nil]
  have hval5 : validateFeatures exModel.numFeatures [JSNum.num 5] = none := by
    decide
  have hval15 : validateFeatures exModel.numFeatures [JSNum.num 15] = none := by
    decide
  refine ⟨?_, ?_, ?_, ?_, ?_, ?_⟩
  · intro fuel m features ws h1 hfa
    obtain ⟨c', hall, _⟩ :=
      traverseAll_fresh fuel features m.trees ws 0 [] (by simp) hfa
    refine ⟨c', ?_⟩
    rw [predictRaw_of_traverseAll fuel m features [] ws c' hall, if_pos h1]
  · intro fuel m features ws k h2 hfa hk
    obtain ⟨c', hall, _⟩ :=
      traverseAll_fresh fuel features m.trees ws 0 [] (by simp) hfa
    refine ⟨c', accumulateMargins m.tree_info ws (List.replicate m.numClasses 0),
      ?_, ?_, ?_⟩
    · rw [predictRaw_of_traverseAll fuel m features [] ws c' hall,
        if_neg (show ¬ m.numClasses = 1 by omega)]
    · rw [accumulateMargins_length, List.length_replicate]
    · rw [accumulateMargins_getD k m.tree_info ws _
        (by rw [List.length_replicate]; omega)]
      have hrep : (List.replicate m.numClasses (0 : ℚ)).getD k 0 = 0 := by
        rw [List.getD_eq_getElem?_getD, List.getElem?_replicate]
        split <;> rfl
      rw [hrep, zero_add]
  · rw [hraw5]
  · rw [predict_eq_of_single 2 exModel [JSNum.num 5] []
      [-(1/2)] [((0, [JSNum.num 5]), -1)] rfl hval5 hraw5]
    show some (Except.ok (classOfProbs (probaOfMargins exModel [-(1/2)]))) =
      some (Except.ok 0)
    rw [classOfProbs_single exModel rfl (-(1/2)),
      if_neg (not_le.2 (sigmoid_lt_half (by norm_num)))]
  · rw [hraw15]
  · rw [predict_eq_of_single 2 exModel [JSNum.num 15] []
      [3/2] [((0, [JSNum.num 15]), 1)] rfl hval15 hraw15]
    show some (Except.ok (classOfProbs (probaOfMargins exModel [3/2]))) =
      some (Except.ok 1)
    rw [classOfProbs_single exModel rfl (3/2),
      if_pos (half_le_sigmoid (by norm_num))]

/-- The single-output margin formula of `predictRaw_margins` applied to the
example model on input `[5]` (one tree, reached leaf weight -1). -/
theorem predictRaw_margins_witness :
    ∃ c', predictRaw 2 exModel [JSNum.num 5] [] =
      (some (.ok [exModel.baseScore + ([-1] : List ℚ).sum]), c') :=
  predictRaw_margins.1 2 exModel [JSNum.num 5] [-1] rfl
    (List.Forall₂.cons (by decide) List.Forall₂.nil)

/-! Feature validation (claim C5). -/

/-- C5 counterexample: `Infinity` is not a finite number, yet it passes
validation (the source only checks `isNaN`), and `predict_proba` returns a
probability vector instead of failing with the invalid-feature-value error. -/
theorem validateFeatures_infinity_counterexample :
    validateFeatures exModel.numFeatures [JSNum.posInf] = none ∧
    (predict_proba 2 exModel [JSNum.posInf] []).1 =
      some (.ok (probaOfMargins exModel [3/2])) := by
  constructor
  · decide
  · have hall : traverseAll 2 [JSNum.posInf] exModel.trees 0 [] =
        (some (.ok [1]), [((0, [JSNum.posInf]), 1)]) := by decide
    have hraw : predictRaw 2 exModel [JSNum.posInf] [] =
        (some (.ok [3/2]), [((0, [JSNum.posInf]), 1)]) := by
      rw [predictRaw_of_traverseAll 2 exModel [JSNum.posInf] [] [1] _ hall,
        if_pos (show exModel.numClasses = 1 from rfl)]
      norm_num [exModel, List.sum_cons, List.sum_nil]
    rw [predict_proba_eq_of 2 exModel [JSNum.posInf] [] [3/2] _ (by decide) hraw]

/-- C5 (amended): validation fails with the feature-count error exactly when
the input length differs from `numFeatures`; with the correct length it fails
with the invalid-feature-value error whenever some element is `NaN` and
passes whenever no element is `NaN` (so non-finite infinities pass); and any
validation error leaves `predict` and `predict_proba` with the cache
unchanged. -/
theorem validateFeatures_characterization :
    (∀ (nf : ℕ) (features : List JSNum), features.length ≠ nf →
       validateFeatures nf features = some (.featureCount nf features.length)) ∧
    (∀ (nf : ℕ) (features : List JSNum), features.length = nf →
       (∃ x ∈ features, x.isNaN = true) →
       validateFeatures nf features = some .invalidFeatureValue) ∧
    (∀ (nf : ℕ) (features : List JSNum), features.length = nf →
       (∀ x ∈ features, x.isNaN = false) →
       validateFeatures nf features = none) ∧
    (∀ (fuel : ℕ) (m : XGBModel) (features : List JSNum) (c : Cache)
       (e : PredErr),
       validateFeatures m.numFeatures features = some e →
       predict fuel m features c = (some (.error e), c) ∧
       predict_proba fuel m features c = (some (.error e), c)) := by
  refine ⟨?_, ?_, ?_, ?_⟩
  · intro nf features h
    rw [validateFeatures, if_pos h]
  · intro nf features h hnan
    rw [validateFeatures, if_neg (by omega)]
    have hb : ¬ features.all (fun f => !f.isNaN) = true := by
      intro hall
      obtain ⟨x, hx, hxn⟩ := hnan
      have := List.all_eq_true.1 hall x hx
      rw [hxn] at this
      cases this
    rw [if_neg hb]
  · intro nf features h hok
    rw [validateFeatures, if_neg (by omega)]
    have hb : features.all (fun f => !f.isNaN) = true :=
      List.all_eq_true.2 fun x hx => by rw [hok x hx]; rfl
    rw [if_pos hb]
  · intro fuel m features c e hv
    constructor
    · unfold predict
      rw [hv]
    · unfold predict_proba
      rw [hv]

/-- The wrong-length and the NaN clauses of `validateFeatures_characterization`
applied to concrete inputs of the example model. -/
theorem validateFeatures_characterization_witness :
    validateFeatures 1 [JSNum.num 1, JSNum.num 2] = some (.featureCount 1 2) ∧
    validateFeatures 1 [JSNum.nan] = some .invalidFeatureValue ∧
    predict 7 exModel [JSNum.nan] [] =
      (some (.error PredErr.invalidFeatureValue), []) :=
  ⟨validateFeatures_characterization.1 1 [JSNum.num 1, JSNum.num 2] (by decide),
   validateFeatures_characterization.2.1 1 [JSNum.nan] (by decide)
     ⟨JSNum.nan, by decide, by decide⟩,
   (validateFeatures_characterization.2.2.2 7 exModel [JSNum.nan] []
     PredErr.invalidFeatureValue (by decide)).1⟩

/-! Feature importances (claim C9). -/

/-- All `split_indices` entries of the ensemble, in tree order. -/
def splitIndicesJoined (m : XGBModel) : List ℤ :=
  (m.trees.map TreeNode.split_indices).join

/-- How many `split_indices` entries (of any node, leaves included) reference
feature `i`. -/
def splitRefCount (m : XGBModel) (i : ℕ) : ℕ :=
  (splitIndicesJoined m).countP (fun fi => decide (fi = (i : ℤ)))

/-- How many `split_indices` entries lie in `[0, numFeatures)` — the total the
code normalizes by. -/
def totalRefCount (m : XGBModel) : ℕ :=
  (splitIndicesJoined m).countP
    (fun fi => decide (0 ≤ fi ∧ fi < (m.numFeatures : ℤ)))

/-- Importances as the claim describes them: count only internal-node splits,
i.e. `split_indices` entries of nodes whose left child is not the -1
sentinel. -/
def importancesClaimed (m : XGBModel) : List ℚ :=
  let counts := m.trees.foldl
    (fun acc t =>
      ((t.split_indices.zip t.left_children).filterMap
        (fun p => if p.2 = -1 then none else some p.1)).foldl
        (incStep m.numFeatures) acc)
    (List.replicate m.numFeatures 0)
  let s := counts.sum
  counts.map (fun v => if 0 < s then v / s else 0)

theorem incAt_eq_addAt (l : List ℚ) (i : ℕ) : incAt l i = addAt l i 1 := rfl

theorem incStep_length (n : ℕ) (acc : List ℚ) (fi : ℤ) :
    (incStep n acc fi).length = acc.length := by
  unfold incStep
  split
  · rw [incAt_eq_addAt, addAt_length]
  · rfl

theorem foldl_incStep_length (n : ℕ) :
    ∀ (fis : List ℤ) (acc : List ℚ),
      (fis.foldl (incStep n) acc).length = acc.length := by
  intro fis
  induction fis with
  | nil => intro acc; rfl
  | cons fi fis ih =>
    intro acc
    rw [List.foldl_cons, ih, incStep_length]

theorem addAt_sum : ∀ (l : List ℚ) (i : ℕ), i < l.length →
    ∀ w : ℚ, (addAt l i w).sum = l.sum + w := by
  intro l
  induction l with
  | nil => intro i hi; cases hi
  | cons a t ih =>
    intro i hi w
    cases i with
    | zero =>
      simp only [addAt, List.set_cons_zero, List.getD_cons_zero, List.sum_cons]
      ring
    | succ j =>
      have hj : j < t.length := by simpa using hi
      have : addAt (a :: t) (j + 1) w = a :: addAt t j w := by
        simp [addAt, List.getD_cons_succ]
      rw [this, List.sum_cons, List.sum_cons, ih j hj w, add_assoc]

theorem foldl_incStep_sum (n : ℕ) :
    ∀ (fis : List ℤ) (acc : List ℚ), acc.length = n →
      (fis.foldl (incStep n) acc).sum =
        acc.sum + (fis.countP (fun fi => decide (0 ≤ fi ∧ fi < (n : ℤ))) : ℚ) := by
  intro fis
  induction fis with
  | nil => intro acc _; simp
  | cons fi fis ih =>
    intro acc hlen
    rw [List.foldl_cons, List.countP_cons]
    by_cases hin : 0 ≤ fi ∧ fi < (n : ℤ)
    · have hstep : incStep n acc fi = addAt acc fi.toNat 1 := by
        rw [incStep, if_pos hin, incAt_eq_addAt]
      have hlt : fi.toNat < acc.length := by
        rw [hlen]
        omega
      rw [hstep, ih (addAt acc fi.toNat 1) (by rw [addAt_length, hlen]),
        addAt_sum acc fi.toNat hlt 1]
      simp [hin]
      ring
    · have hstep : incStep n acc fi = acc := by rw [incStep, if_neg hin]
      rw [hstep, ih acc hlen]
      simp [hin]

theorem foldl_incStep_getD (n k : ℕ) (hk : k < n) :
    ∀ (fis : List ℤ) (acc : List ℚ), k < acc.length →
      (fis.foldl (incStep n) acc).getD k 0 =
        acc.getD k 0 + (fis.countP (fun fi => decide (fi = (k : ℤ))) : ℚ) := by
  intro fis
  induction fis with
  | nil => intro acc _; simp
  | cons fi fis ih =>
    intro acc hacc
    rw [List.foldl_cons, List.countP_cons]
    by_cases heq : fi = (k : ℤ)
    · have hin : 0 ≤ fi ∧ fi < (n : ℤ) := by omega
      have hstep : incStep n acc fi = addAt acc k 1 := by
        rw [incStep, if_pos hin, incAt_eq_addAt]
        congr 1
        omega
      rw [hstep, ih (addAt acc k 1) (by rw [addAt_length]; exact hacc),
        addAt_getD_self hacc 1]
      simp [heq]
      ring
    · by_cases hin : 0 ≤ fi ∧ fi < (n : ℤ)
      · have hne : fi.toNat ≠ k := by omega
        have hstep : incStep n acc fi = addAt acc fi.toNat 1 := by
          rw [incStep, if_pos hin, incAt_eq_addAt]
        rw [hstep, ih (addAt acc fi.toNat 1) (by rw [addAt_length]; exact hacc),
          addAt_getD_ne hne 1]
        simp [heq]
      · have hstep : incStep n acc fi = acc := by rw [incStep, if_neg hin]
        rw [hstep, ih acc hacc]
        simp [heq]

theorem countSplits_eq_flat (n : ℕ) :
    ∀ (trees : List TreeNode) (acc : List ℚ),
      trees.foldl (fun acc t => t.split_indices.foldl (incStep n) acc) acc =
        ((trees.map TreeNode.split_indices).join).foldl (incStep n) acc := by
  intro trees
  induction trees with
  | nil => intro acc; rfl
  | cons t ts ih =>
    intro acc
    rw [List.foldl_cons, List.map_cons,
      show (t.split_indices :: List.map TreeNode.split_indices ts).join =
        t.split_indices ++ (List.map TreeNode.split_indices ts).join from rfl,
      List.foldl_append, ih]

theorem list_sum_map_div {K : Type} [DivisionRing K] (l : List K) (s : K) :
    (l.map (fun v => v / s)).sum = l.sum / s := by
  induction l with
  | nil => simp
  | cons a t ih => simp [ih, add_div]

/-- C9 counterexample: on a valid single-leaf ensemble the code counts the
leaf's (meaningless) `split_indices` entry and returns [1], while the claimed
internal-node-split counting yields all zeros. -/
theorem getFeatureImportances_counterexample :
    getFeatureImportances mLeaf = [1] ∧ importancesClaimed mLeaf = [0] ∧
    getFeatureImportances mLeaf ≠ importancesClaimed mLeaf := by
  have hc : countSplits 1 [leafTree] = [1] := by
    simp only [countSplits, List.foldl_cons, List.foldl_nil, leafTree]
    norm_num [incStep, incAt, List.replicate, addAt]
  have h1 : getFeatureImportances mLeaf = [1] := by
    have himps : getFeatureImportances mLeaf =
        (countSplits 1 [leafTree]).map
          (fun v => if 0 < (countSplits 1 [leafTree]).sum
            then v / (countSplits 1 [leafTree]).sum else 0) := rfl
    rw [himps, hc]
    norm_num
  have h2 : importancesClaimed mLeaf = [0] := by
    norm_num [importancesClaimed, mLeaf, leafTree, List.replicate, incStep]
  refine ⟨h1, h2, ?_⟩
  rw [h1, h2]
  simp

/-- C9 (amended): each entry of `getFeatureImportances` is the number of
`split_indices` entries (of any node, leaves included) referencing that
feature, divided by the number of `split_indices` entries in range — not the
count of internal-node splits only — and the output sums to 1 or is the
all-zero vector. -/
theorem getFeatureImportances_characterization (m : XGBModel) :
    (getFeatureImportances m).length = m.numFeatures ∧
    (∀ k, k < m.numFeatures →
      (getFeatureImportances m).getD k 0 =
        if 0 < totalRefCount m then
          (splitRefCount m k : ℚ) / (totalRefCount m : ℚ)
        else 0) ∧
    ((getFeatureImportances m).sum = 1 ∨
      getFeatureImportances m = List.replicate m.numFeatures 0) := by
  have hflat := countSplits_eq_flat m.numFeatures m.trees
    (List.replicate m.numFeatures 0)
  have hlen : (countSplits m.numFeatures m.trees).length = m.numFeatures := by
    rw [countSplits, hflat, foldl_incStep_length, List.length_replicate]
  have hsum : (countSplits m.numFeatures m.trees).sum = (totalRefCount m : ℚ) := by
    rw [countSplits, hflat,
      foldl_incStep_sum m.numFeatures _ _ (List.length_replicate _ _)]
    simp [totalRefCount, splitIndicesJoined]
  have hget : ∀ k, k < m.numFeatures →
      (countSplits m.numFeatures m.trees).getD k 0 = (splitRefCount m k : ℚ) := by
    intro k hk
    rw [countSplits, hflat, foldl_incStep_getD m.numFeatures k hk _ _
      (by rw [List.length_replicate]; exact hk)]
    have hrep : (List.replicate m.numFeatures (0 : ℚ)).getD k 0 = 0 := by
      rw [List.getD_eq_getElem?_getD, List.getElem?_replicate]
      split <;> rfl
    rw [hrep, zero_add]
    simp [splitRefCount, splitIndicesJoined]
  have himps : getFeatureImportances m =
      (countSplits m.numFeatures m.trees).map
        (fun v => if 0 < (countSplits m.numFeatures m.trees).sum
          then v / (countSplits m.numFeatures m.trees).sum else 0) := rfl
  refine ⟨?_, ?_, ?_⟩
  · rw [himps, List.length_map, hlen]
  · intro k hk
    have hk' : k < (countSplits m.numFeatures m.trees).length := by
      rw [hlen]; exact hk
    rw [himps, List.getD_eq_getElem?_getD, List.getElem?_map,
      List.getElem?_eq_getElem hk']
    simp only [Option.map_some', Option.getD_some]
    rw [← List.getD_eq_getElem _ 0 hk', hget k hk, hsum]
    by_cases hpos : 0 < totalRefCount m
    · rw [if_pos (by exact_mod_cast hpos), if_pos hpos]
    · rw [if_neg (by exact_mod_cast hpos), if_neg hpos]
  · by_cases hpos : 0 < totalRefCount m
    · left
      rw [himps, hsum]
      have hposq : (0 : ℚ) < (totalRefCount m : ℚ) := by exact_mod_cast hpos
      simp only [if_pos hposq]
      rw [list_sum_map_div, hsum, div_self (ne_of_gt hposq)]
    · right
      rw [himps, hsum]
      have hposq : ¬ (0 : ℚ) < (totalRefCount m : ℚ) := by exact_mod_cast hpos
      simp only [if_neg hposq]
      rw [List.map_const', hlen]

/-- The entrywise formula of `getFeatureImportances_characterization` applied
to the example model at feature 0. -/
theorem getFeatureImportances_characterization_witness :
    (getFeatureImportances exModel).getD 0 0 =
      if 0 < totalRefCount exModel then
        (splitRefCount exModel 0 : ℚ) / (totalRefCount exModel : ℚ)
      else 0 :=
  (getFeatureImportances_characterization exModel).2.1 0 (by decide)

/-! Predictor construction (claim C6). -/

/-- C6 counterexample: a document whose first tree's declared feature count is
the unparseable string "abc" constructs successfully — `numFeatures` is merely
left as the NaN marker — instead of failing with a `ModelFormatError`. -/
theorem constructPredictor_counterexample :
    (constructPredictor (some badDoc)).isOk = true ∧
    (constructPredictor (some badDoc)).toOption.map PredictorState.numFeatures =
      some none := by
  constructor
  · decide
  · decide

/-- C6 (amended): construction fails with `ModelFormatError` when the document
is unparseable, when the objective name is absent or empty, when the tree list
is empty, and when the first tree lacks its `tree_param` block; it succeeds
whenever the objective name is present and non-empty, the tree list is
non-empty and the first tree has a `tree_param` block — even when the declared
feature count is not parseable as a positive integer; and a failed
construction produces no instance. -/
theorem constructPredictor_characterization :
    (constructPredictor none = .error .modelFormat) ∧
    (∀ d : RawModelDoc, d.objectiveName = none →
       constructPredictor (some d) = .error .modelFormat) ∧
    (∀ d : RawModelDoc, d.objectiveName = some "" →
       constructPredictor (some d) = .error .modelFormat) ∧
    (∀ d : RawModelDoc, d.trees = [] →
       constructPredictor (some d) = .error .modelFormat) ∧
    (∀ (d : RawModelDoc) (t0 : RawTree) (ts : List RawTree),
       d.trees = t0 :: ts → t0.tree_param = none →
       constructPredictor (some d) = .error .modelFormat) ∧
    (∀ (d : RawModelDoc) (nm : String) (t0 : RawTree) (ts : List RawTree)
       (tp : TreeParamR),
       d.objectiveName = some nm → nm ≠ "" → d.trees = t0 :: ts →
       t0.tree_param = some tp →
       (constructPredictor (some d)).isOk = true) ∧
    (∀ (doc : Option RawModelDoc) (e : ModelFormatE) (s : PredictorState),
       constructPredictor doc = .error e → constructPredictor doc ≠ .ok s) := by
  refine ⟨rfl, ?_, ?_, ?_, ?_, ?_, ?_⟩
  · intro d hobj
    simp only [constructPredictor, hobj]
  · intro d hobj
    simp only [constructPredictor, hobj, if_true]
  · intro d htrees
    cases hobj : d.objectiveName with
    | none => simp only [constructPredictor, hobj]
    | some nm =>
      simp only [constructPredictor, hobj, htrees]
      exact ite_self _
  · intro d t0 ts htrees htp
    cases hobj : d.objectiveName with
    | none => simp only [constructPredictor, hobj]
    | some nm =>
      simp only [constructPredictor, hobj, htrees, htp]
      exact ite_self _
  · intro d nm t0 ts tp hobj hnm htrees htp
    simp only [constructPredictor, hobj, htrees, htp]
    rw [if_neg hnm]
    rfl
  · intro doc e s herr hok
    rw [herr] at hok
    cases hok

/-- The absent-objective clause of `constructPredictor_characterization`
applied to a concrete document. -/
theorem constructPredictor_characterization_witness :
    constructPredictor (some ⟨none, none, [], [], none⟩) =
      .error .modelFormat :=
  constructPredictor_characterization.2.1 ⟨none, none, [], [], none⟩ rfl

/-! Preprocessor transform (claims C7, C8, C10). -/

theorem transformValue_cat (md : PipelineMetadata) (f : String)
    (value : RawValue) (mapping : List (String × ℚ))
    (hcat : alookup md.categorical_features f = some mapping) :
    ∃ x, transformValue md f value = .ok [x] := by
  unfold transformValue
  rw [hcat]
  exact ⟨_, rfl⟩

theorem transformValue_num (md : PipelineMetadata) (f : String)
    (value : RawValue) (params : NumericParams)
    (hcat : alookup md.categorical_features f = none)
    (hnum : alookup md.numeric_features f = some params) :
    (∃ x, transformValue md f value = .ok [x]) ∨
      transformValue md f value = .error (.invalidNumericValue f) := by
  simp only [transformValue, hcat, hnum]
  by_cases h : (jsNumber value).isNaN = true
  · right
    rw [if_pos h]
  · left
    rw [if_neg h]
    cases md.scaling_method <;> exact ⟨_, rfl⟩

theorem transformValue_undeclared (md : PipelineMetadata) (f : String)
    (value : RawValue)
    (hcat : alookup md.categorical_features f = none)
    (hnum : alookup md.numeric_features f = none) :
    transformValue md f value = .ok [] := by
  unfold transformValue
  rw [hcat, hnum]

theorem transformValue_error_shape (md : PipelineMetadata) (f : String)
    (value : RawValue) (e : PreErr)
    (h : transformValue md f value = .error e) : e = .invalidNumericValue f := by
  cases hcat : alookup md.categorical_features f with
  | some mapping =>
    obtain ⟨x, hx⟩ := transformValue_cat md f value mapping hcat
    rw [hx] at h
    cases h
  | none =>
    cases hnum : alookup md.numeric_features f with
    | none =>
      rw [transformValue_undeclared md f value hcat hnum] at h
      cases h
    | some params =>
      rcases transformValue_num md f value params hcat hnum with ⟨x, hx⟩ | herr
      · rw [hx] at h
        cases h
      · rw [herr] at h
        injection h with h
        rw [← h]

theorem transformList_length (md : PipelineMetadata) (input : InputRecord) :
    ∀ (fs : List String) (out : List JSNum),
      transformList md input fs = .ok out →
      out.length = (fs.filter (fun f =>
        (alookup md.categorical_features f).isSome ||
        (alookup md.numeric_features f).isSome)).length := by
  intro fs
  induction fs with
  | nil =>
    intro out h
    injection h with h
    rw [← h]
    rfl
  | cons f fs ih =>
    intro out h
    rw [transformList] at h
    cases hcat : alookup md.categorical_features f with
    | some mapping =>
      obtain ⟨x, hx⟩ := transformValue_cat md f
        ((alookup input f).getD (RawValue.num .nan)) mapping hcat
      rw [hx] at h
      cases hrest : transformList md input fs with
      | error e => rw [hrest] at h; cases h
      | ok rest =>
        rw [hrest] at h
        injection h with h
        rw [← h, List.filter_cons_of_pos (by simp [hcat])]
        simp [ih rest hrest]
    | none =>
      cases hnum : alookup md.numeric_features f with
      | some params =>
        rcases transformValue_num md f
          ((alookup input f).getD (RawValue.num .nan)) params hcat hnum with
          ⟨x, hx⟩ | herr
        · rw [hx] at h
          cases hrest : transformList md input fs with
          | error e => rw [hrest] at h; cases h
          | ok rest =>
            rw [hrest] at h
            injection h with h
            rw [← h, List.filter_cons_of_pos (by simp [hcat, hnum])]
            simp [ih rest hrest]
        · rw [herr] at h
          cases h
      | none =>
        rw [transformValue_undeclared md f
          ((alookup input f).getD (RawValue.num .nan)) hcat hnum] at h
        cases hrest : transformList md input fs with
        | error e => rw [hrest] at h; cases h
        | ok rest =>
          rw [hrest] at h
          injection h with h
          rw [← h, List.filter_cons_of_neg (by simp [hcat, hnum])]
          simp [ih rest hrest]

theorem transformList_outcome (md : PipelineMetadata) (input : InputRecord) :
    ∀ fs : List String,
      (∃ out, transformList md input fs = .ok out) ∨
      (∃ f, transformList md input fs = .error (.invalidNumericValue f)) := by
  intro fs
  induction fs with
  | nil => exact .inl ⟨[], rfl⟩
  | cons f fs ih =>
    rw [transformList]
    cases hv : transformValue md f ((alookup input f).getD (RawValue.num .nan)) with
    | error e =>
      right
      refine ⟨f, ?_⟩
      rw [transformValue_error_shape md f _ e hv]
    | ok vs =>
      rcases ih with ⟨out, hout⟩ | ⟨g, hg⟩
      · left
        rw [hout]
        exact ⟨vs ++ out, rfl⟩
      · right
        rw [hg]
        exact ⟨g, rfl⟩

/-- C7 counterexample: a metadata document whose single ordered feature is
declared neither categorical nor numeric makes `transform` silently emit
nothing for it — the output has length 0, not `orderedFeatures.length = 1`. -/
theorem transform_skips_undeclared_counterexample :
    transform md0 [("a", RawValue.num (.num 1))] = .ok [] ∧
    md0.features.length = 1 := by
  constructor
  · decide
  · rfl

/-- C7 (amended): when some ordered feature is absent from the input,
`transform` fails with the missing-features error listing exactly the absent
names in order; otherwise it either fails with an invalid-numeric-value error
or returns a vector whose length is the number of ordered features that are
declared categorical or numeric (features in neither map are skipped, so the
length equals `orderedFeatures.length` only when every ordered feature is
declared). -/
theorem transform_characterization :
    (∀ (md : PipelineMetadata) (input : InputRecord),
       md.features.filter (fun f => (alookup input f).isNone) ≠ [] →
       transform md input = .error (.missingFeatures
         (md.features.filter (fun f => (alookup input f).isNone)))) ∧
    (∀ (md : PipelineMetadata) (input : InputRecord) (out : List JSNum),
       transform md input = .ok out →
       out.length = (md.features.filter (fun f =>
         (alookup md.categorical_features f).isSome ||
         (alookup md.numeric_features f).isSome)).length) ∧
    (∀ (md : PipelineMetadata) (input : InputRecord),
       md.features.filter (fun f => (alookup input f).isNone) = [] →
       (∃ out, transform md input = .ok out) ∨
       (∃ f, transform md input = .error (.invalidNumericValue f))) := by
  refine ⟨?_, ?_, ?_⟩
  · intro md input hne
    rw [transform, if_neg ?_]
    intro hemp
    exact hne (List.isEmpty_iff.1 hemp)
  · intro md input out h
    rw [transform] at h
    by_cases hemp : (md.features.filter
        (fun f => (alookup input f).isNone)).isEmpty = true
    · rw [if_pos hemp] at h
      exact transformList_length md input md.features out h
    · rw [if_neg hemp] at h
      cases h
  · intro md input hemp
    rw [transform, if_pos (by rw [hemp]; rfl)]
    exact transformList_outcome md input md.features

/-- The missing-feature clause of `transform_characterization` applied to an
empty input record against the categorical example metadata. -/
theorem transform_characterization_witness :
    transform md1 [] = .error (.missingFeatures
      (md1.features.filter (fun f => (alookup ([] : InputRecord) f).isNone))) :=
  transform_characterization.1 md1 [] (by decide)

/-! Categorical fallback (claim C8). -/

/-- C8 counterexample: on a category map declaring "red" → 0 first and the
array-index-like label "2" → 7 second, the unseen value "purple" is encoded
as 7 — `Object.keys` enumerates "2" before "red" — not as the code 0 of the
first declared (insertion-order) category the claim prescribes. -/
theorem transform_categorical_fallback_counterexample :
    transform md3 [("color", RawValue.str "purple")] = .ok [.num 7] ∧
    [("red", (0 : ℚ)), ("2", 7)].head? = some ("red", 0) ∧
    transform md3 [("color", RawValue.str "purple")] ≠ .ok [.num 0] := by
  refine ⟨by decide, rfl, by decide⟩

/-- C8 (amended): with a non-empty category map, a value whose string form is
in the map is encoded as its assigned code, and an unseen value never raises —
it is deterministically encoded as `mapping[Object.keys(mapping)[0]]`, the
code of the first key in JS own-property order (array-index keys in ascending
numeric order first, insertion order only for the remaining keys); when no
category label is an array-index string this first key IS the first declared
category, and the concrete conjuncts show a hit ("green" → 1), an
insertion-order fallback ("purple" → 0) and a numeric-order fallback
("purple" → 7) through the full `transform`. -/
theorem transform_categorical_fallback_characterization :
    (∀ (md : PipelineMetadata) (f : String) (mapping : List (String × ℚ))
       (k : String) (value : RawValue),
       alookup md.categorical_features f = some mapping →
       firstObjectKey mapping = some k →
       (∀ code, alookup mapping (jsToString value) = some code →
          transformValue md f value = .ok [.num code]) ∧
       (alookup mapping (jsToString value) = none →
          ∀ code, alookup mapping k = some code →
          transformValue md f value = .ok [.num code])) ∧
    (∀ mapping : List (String × ℚ),
       (∀ p ∈ mapping, isArrayIndexKey p.1 = false) →
       firstObjectKey mapping = mapping.head?.map Prod.fst) ∧
    (transform md1 [("color", RawValue.str "green")] = .ok [.num 1] ∧
     transform md1 [("color", RawValue.str "purple")] = .ok [.num 0] ∧
     transform md3 [("color", RawValue.str "purple")] = .ok [.num 7]) := by
  refine ⟨?_, ?_, by decide, by decide, by decide⟩
  · intro md f mapping k value hcat hkey
    constructor
    · intro code hcode
      simp only [transformValue, hcat, hcode]
    · intro hmiss code hcode
      simp only [transformValue, hcat, hmiss, hkey, hcode]
  · intro mapping hno
    unfold firstObjectKey jsObjectKeys
    have h1 : (mapping.map Prod.fst).filter isArrayIndexKey = [] := by
      rw [List.filter_eq_nil]
      intro k hk
      obtain ⟨p, hp, rfl⟩ := List.mem_map.1 hk
      simp [hno p hp]
    have h2 : (mapping.map Prod.fst).filter (fun k => !(isArrayIndexKey k)) =
        mapping.map Prod.fst := by
      rw [List.filter_eq_self]
      intro k hk
      obtain ⟨p, hp, rfl⟩ := List.mem_map.1 hk
      simp [hno p hp]
    rw [h1, h2]
    cases mapping <;> rfl

/-- The unseen-category clause of
`transform_categorical_fallback_characterization` applied to the example
metadata on the unseen value "purple". -/
theorem transform_categorical_fallback_characterization_witness :
    transformValue md1 "color" (RawValue.str "purple") = .ok [.num 0] :=
  (transform_categorical_fallback_characterization.1 md1 "color"
    [("red", 0), ("green", 1), ("blue", 2)] "red" (RawValue.str "purple")
    rfl (by decide)).2 (by decide) 0 (by decide)

/-! Missing scaling parameters (claim C10). -/

theorem jsSub_nan_right (x : JSNum) : jsSub x .nan = .nan := by
  cases x <;> rfl

theorem jsDivJ_nan_right (x : JSNum) : jsDivJ x .nan = .nan := by
  cases x <;> rfl

theorem jsDivJ_nan_left (y : JSNum) : jsDivJ .nan y = .nan := by
  cases y <;> rfl

/-- C10: a numeric feature whose parameter block lacks `mean` or `scale`
(under standard scaling) or `min` or `scale` (under min-max scaling) does not
make `transform` raise: the scaling arithmetic on the absent (undefined)
parameter yields `NaN`, which is silently emitted at that feature's position,
as the concrete conjunct shows through the full `transform`. -/
theorem transform_missing_scaling_params :
    (∀ (md : PipelineMetadata) (f : String) (params : NumericParams)
       (value : RawValue),
       alookup md.categorical_features f = none →
       alookup md.numeric_features f = some params →
       (jsNumber value).isNaN = false →
       ((md.scaling_method = .standard →
          params.mean = none ∨ params.scale = none →
          transformValue md f value = .ok [.nan]) ∧
        (md.scaling_method = .minmax →
          params.min = none ∨ params.scale = none →
          transformValue md f value = .ok [.nan]))) ∧
    (transform md2 [("x", RawValue.num (.num 4))] = .ok [.nan]) := by
  refine ⟨?_, by decide⟩
  intro md f params value hcat hnum hfin
  have hnotnan : ¬ (jsNumber value).isNaN = true := by rw [hfin]; exact Bool.false_ne_true
  constructor
  · intro hmethod hmiss
    simp only [transformValue, hcat, hnum, if_neg hnotnan, hmethod]
    rcases hmiss with hm | hs
    · rw [hm]
      show Except.ok [jsDivJ (jsSub (jsNumber value) JSNum.nan) (optToJS params.scale)] = _
      rw [jsSub_nan_right, jsDivJ_nan_left]
    · rw [hs]
      show Except.ok [jsDivJ (jsSub (jsNumber value) (optToJS params.mean)) JSNum.nan] = _
      rw [jsDivJ_nan_right]
  · intro hmethod hmiss
    simp only [transformValue, hcat, hnum, if_neg hnotnan, hmethod]
    rcases hmiss with hm | hs
    · rw [hm]
      show Except.ok [jsDivJ (jsSub (jsNumber value) JSNum.nan) (optToJS params.scale)] = _
      rw [jsSub_nan_right, jsDivJ_nan_left]
    · rw [hs]
      show Except.ok [jsDivJ (jsSub (jsNumber value) (optToJS params.min)) JSNum.nan] = _
      rw [jsDivJ_nan_right]

/-- The missing-mean clause of `transform_missing_scaling_params` applied to
the example metadata. -/
theorem transform_missing_scaling_params_witness :
    transformValue md2 "x" (RawValue.num (.num 4)) = .ok [.nan] :=
  ((transform_missing_scaling_params.1 md2 "x"
    ⟨none, some 2, none⟩ (RawValue.num (.num 4)) rfl rfl (by decide)).1
    rfl (Or.inl rfl))

/-! Probability vector properties (claim C3). -/

theorem le_foldl_max {α : Type} [LinearOrder α] :
    ∀ (t : List α) (a : α), a ≤ t.foldl max a := by
  intro t
  induction t with
  | nil => intro a; exact le_refl a
  | cons b t ih =>
    intro a
    exact le_trans (le_max_left a b) (ih (max a b))

theorem foldl_max_le_of_mem {α : Type} [LinearOrder α] :
    ∀ (t : List α) (a x : α), x ∈ t → x ≤ t.foldl max a := by
  intro t
  induction t with
  | nil => intro a x hx; cases hx
  | cons b t ih =>
    intro a x hx
    rcases List.mem_cons.1 hx with rfl | hx'
    · exact le_trans (le_max_right a x) (le_foldl_max t (max a x))
    · exact ih (max a b) x hx'

theorem foldl_max_mem {α : Type} [LinearOrder α] :
    ∀ (t : List α) (a : α), t.foldl max a = a ∨ t.foldl max a ∈ t := by
  intro t
  induction t with
  | nil => intro a; exact .inl rfl
  | cons b t ih =>
    intro a
    rw [List.foldl_cons]
    rcases ih (max a b) with heq | hmem
    · rcases max_choice a b with hab | hab
      · left
        rw [heq, hab]
      · right
        rw [heq, hab]
        exact List.mem_cons_self b t
    · exact .inr (List.mem_cons_of_mem b hmem)

theorem le_jsMaxL {α : Type} [LinearOrder α] (d : α) (l : List α) (x : α)
    (hx : x ∈ l) : x ≤ jsMaxL d l := by
  cases l with
  | nil => cases hx
  | cons h t =>
    rcases List.mem_cons.1 hx with rfl | hx'
    · exact le_foldl_max t x
    · exact foldl_max_le_of_mem t h x hx'

theorem jsMaxL_mem {α : Type} [LinearOrder α] (d : α) (l : List α)
    (hl : l ≠ []) : jsMaxL d l ∈ l := by
  cases l with
  | nil => exact absurd rfl hl
  | cons h t =>
    rcases foldl_max_mem t h with heq | hmem
    · rw [jsMaxL, heq]
      exact List.mem_cons_self h t
    · exact List.mem_cons_of_mem h hmem

theorem expTerm_nonneg (M s : ℚ) : 0 ≤ expTerm M s := by
  unfold expTerm
  split
  · exact le_refl 0
  · exact le_of_lt (Real.exp_pos _)

theorem expTerm_self (M : ℚ) : expTerm M M = 1 := by
  unfold expTerm
  rw [if_neg (by norm_num), sub_self, Real.exp_zero]

theorem expTerm_eq_one_iff (M s : ℚ) (h : s ≤ M) :
    expTerm M s = 1 ↔ s = M := by
  constructor
  · intro h1
    unfold expTerm at h1
    split at h1
    · exact absurd h1 (by norm_num)
    · have : (s : ℝ) - (M : ℝ) = 0 := (Real.exp_eq_one_iff _).1 h1
      have : (s : ℝ) = (M : ℝ) := by linarith
      exact_mod_cast this
  · intro h1
    rw [h1, expTerm_self]

theorem expTerm_monotone (M : ℚ) : Monotone (expTerm M) := by
  intro a b hab
  unfold expTerm
  by_cases ha : a - M < -40
  · rw [if_pos ha]
    split
    · exact le_refl 0
    · exact le_of_lt (Real.exp_pos _)
  · rw [if_neg ha, if_neg (by simp only [not_lt] at ha ⊢; linarith)]
    have hcast : (a : ℝ) ≤ (b : ℝ) := by exact_mod_cast hab
    exact Real.exp_le_exp.2 (by linarith)

theorem one_le_softmaxDenom (scores : List ℚ) (h : scores ≠ []) :
    1 ≤ softmaxDenom scores := by
  unfold softmaxDenom
  have hM : jsMaxL 0 scores ∈ scores := jsMaxL_mem 0 scores h
  have h1 : expTerm (jsMaxL 0 scores) (jsMaxL 0 scores) ∈
      scores.map (expTerm (jsMaxL 0 scores)) := List.mem_map_of_mem _ hM
  have := List.single_le_sum
    (fun x hx => by
      obtain ⟨s, _, rfl⟩ := List.mem_map.1 hx
      exact expTerm_nonneg _ s) _ h1
  rw [expTerm_self] at this
  exact this

theorem softmaxDenom_pos (scores : List ℚ) (h : scores ≠ []) :
    0 < softmaxDenom scores :=
  lt_of_lt_of_le one_pos (one_le_softmaxDenom scores h)

theorem softmax_eq (scores : List ℚ) :
    softmax scores = (scores.map (expTerm (jsMaxL 0 scores))).map
      (fun e => e / (if softmaxDenom scores = 0 then 1 else softmaxDenom scores)) :=
  rfl

theorem predict_proba_inv (fuel : ℕ) (m : XGBModel) (features : List JSNum)
    (c : Cache) (probs : List ℝ) (c' : Cache)
    (h : predict_proba fuel m features c = (some (.ok probs), c')) :
    validateFeatures m.numFeatures features = none ∧
    ∃ margins, predictRaw fuel m features c = (some (.ok margins), c') ∧
      probs = probaOfMargins m margins := by
  unfold predict_proba at h
  cases hval : validateFeatures m.numFeatures features with
  | some e =>
    rw [hval] at h
    simp at h
  | none =>
    rw [hval] at h
    refine ⟨rfl, ?_⟩
    rcases hraw : predictRaw fuel m features c with ⟨r, c''⟩
    rw [hraw] at h
    cases r with
    | none => simp at h
    | some x =>
      cases x with
      | error e => simp at h
      | ok margins =>
        simp only [Prod.mk.injEq, Option.some.injEq, Except.ok.injEq] at h
        refine ⟨margins, ?_, h.1.symm⟩
        simp only [hraw, h.2]


theorem predictRaw_of_traverseAll_err (fuel : ℕ) (m : XGBModel)
    (features : List JSNum) (c : Cache) (e : ℤ) (c' : Cache)
    (h : traverseAll fuel features m.trees 0 c = (some (.error e), c')) :
    predictRaw fuel m features c = (some (.error e), c') := by
  rw [predictRaw, h]

theorem predictRaw_of_traverseAll_none (fuel : ℕ) (m : XGBModel)
    (features : List JSNum) (c : Cache) (c' : Cache)
    (h : traverseAll fuel features m.trees 0 c = (none, c')) :
    predictRaw fuel m features c = (none, c') := by
  rw [predictRaw, h]

theorem predictRaw_ok_length (fuel : ℕ) (m : XGBModel) (features : List JSNum)
    (c : Cache) (margins : List ℚ) (c' : Cache)
    (h : predictRaw fuel m features c = (some (.ok margins), c')) :
    margins.length = if m.numClasses = 1 then 1 else m.numClasses := by
  rcases htr : traverseAll fuel features m.trees 0 c with ⟨r, c''⟩
  cases r with
  | none =>
    rw [predictRaw_of_traverseAll_none fuel m features c c'' htr] at h
    simp at h
  | some x =>
    cases x with
    | error e =>
      rw [predictRaw_of_traverseAll_err fuel m features c e c'' htr] at h
      simp at h
    | ok ws =>
      rw [predictRaw_of_traverseAll fuel m features c ws c'' htr] at h
      by_cases h1 : m.numClasses = 1
      · rw [if_pos h1] at h ⊢
        simp only [Prod.mk.injEq, Option.some.injEq, Except.ok.injEq] at h
        rw [← h.1]
        rfl
      · rw [if_neg h1] at h ⊢
        simp only [Prod.mk.injEq, Option.some.injEq, Except.ok.injEq] at h
        rw [← h.1, accumulateMargins_length, List.length_replicate]

/-- C3: whenever `predict_proba` succeeds, every returned entry lies in [0,1]
and the entries sum to 1 (hence within tolerance 1e-9), in both the binary
`[1 - p, p]` case and the multiclass softmax case; and the all-zero-sum guard
of softmax is never exercised on a nonempty margin vector, because the
maximum-margin term always adds exp(0) = 1, making the denominator at
least 1. -/
theorem predict_proba_is_distribution :
    (∀ (fuel : ℕ) (m : XGBModel) (features : List JSNum) (c : Cache)
       (probs : List ℝ) (c' : Cache),
       1 ≤ m.numClasses →
       predict_proba fuel m features c = (some (.ok probs), c') →
       (∀ p ∈ probs, 0 ≤ p ∧ p ≤ 1) ∧ |probs.sum - 1| ≤ 1 / 1000000000) ∧
    (∀ scores : List ℚ, scores ≠ [] → 1 ≤ softmaxDenom scores) := by
  refine ⟨?_, one_le_softmaxDenom⟩
  intro fuel m features c probs c' hnc h
  obtain ⟨hval, margins, hraw, hprobs⟩ :=
    predict_proba_inv fuel m features c probs c' h
  subst hprobs
  by_cases h1 : m.numClasses = 1
  · have hp : probaOfMargins m margins =
        [1 - sigmoid ((margins.getD 0 0 : ℚ) : ℝ),
         sigmoid ((margins.getD 0 0 : ℚ) : ℝ)] := by
      unfold probaOfMargins
      rw [if_pos h1]
    rw [hp]
    constructor
    · intro p hp'
      have hs0 := sigmoid_nonneg ((margins.getD 0 0 : ℚ) : ℝ)
      have hs1 := sigmoid_le_one ((margins.getD 0 0 : ℚ) : ℝ)
      rcases List.mem_cons.1 hp' with rfl | hp''
      · constructor <;> linarith
      · rcases List.mem_cons.1 hp'' with rfl | hp3
        · exact ⟨hs0, hs1⟩
        · cases hp3
    · simp only [List.sum_cons, List.sum_nil]
      rw [show (1 - sigmoid ((margins.getD 0 0 : ℚ) : ℝ)) +
          (sigmoid ((margins.getD 0 0 : ℚ) : ℝ) + 0) - 1 = (0 : ℝ) from by ring]
      norm_num
  · have hlen := predictRaw_ok_length fuel m features c margins c' hraw
    rw [if_neg h1] at hlen
    have hne : margins ≠ [] := by
      intro hnil
      rw [hnil] at hlen
      simp at hlen
      omega
    have hdpos : 0 < softmaxDenom margins := softmaxDenom_pos margins hne
    have hdne : softmaxDenom margins ≠ 0 := ne_of_gt hdpos
    have hp : probaOfMargins m margins = softmax margins := by
      unfold probaOfMargins
      rw [if_neg h1]
    rw [hp, softmax_eq, if_neg hdne]
    constructor
    · intro p hp'
      obtain ⟨e, he, rfl⟩ := List.mem_map.1 hp'
      constructor
      · obtain ⟨s, hs, rfl⟩ := List.mem_map.1 he
        exact div_nonneg (expTerm_nonneg _ _) (le_of_lt hdpos)
      · rw [div_le_one hdpos]
        exact List.single_le_sum
          (fun x hx => by
            obtain ⟨t, _, rfl⟩ := List.mem_map.1 hx
            exact expTerm_nonneg _ t) _ he
    · rw [list_sum_map_div,
        show (margins.map (expTerm (jsMaxL 0 margins))).sum =
          softmaxDenom margins from rfl,
        div_self hdne]
      norm_num

/-- The no-zero-denominator clause of `predict_proba_is_distribution` applied
to the concrete one-element margin vector `[0]`. -/
theorem predict_proba_is_distribution_witness :
    1 ≤ softmaxDenom [(0 : ℚ)] :=
  predict_proba_is_distribution.2 [0] (by decide)

/-! Argmax relation (claim C4). -/

theorem jsIndexOf_nonneg_of_mem {α : Type} [DecidableEq α] :
    ∀ (l : List α) (x : α), x ∈ l → 0 ≤ jsIndexOf l x := by
  intro l
  induction l with
  | nil => intro x hx; cases hx
  | cons h t ih =>
    intro x hx
    rw [jsIndexOf]
    by_cases he : h = x
    · rw [if_pos he]
    · rw [if_neg he]
      rcases List.mem_cons.1 hx with rfl | hx'
      · exact absurd rfl he
      · have hnn := ih x hx'
        rw [if_neg (by omega)]
        omega

theorem jsIndexOf_spec {α : Type} [DecidableEq α] :
    ∀ (l : List α) (x : α), x ∈ l →
      ∃ k : ℕ, jsIndexOf l x = (k : ℤ) ∧ l[k]? = some x ∧
        ∀ j < k, l[j]? ≠ some x := by
  intro l
  induction l with
  | nil => intro x hx; cases hx
  | cons h t ih =>
    intro x hx
    by_cases he : h = x
    · refine ⟨0, ?_, ?_, ?_⟩
      · rw [jsIndexOf, if_pos he]
        rfl
      · rw [List.getElem?_cons_zero, he]
      · intro j hj; omega
    · rcases List.mem_cons.1 hx with rfl | hx'
      · exact absurd rfl he
      · obtain ⟨k, hk1, hk2, hk3⟩ := ih x hx'
        refine ⟨k + 1, ?_, ?_, ?_⟩
        · rw [jsIndexOf, if_neg he, if_neg (by omega), hk1]
          push_cast
          ring
        · rw [List.getElem?_cons_succ]
          exact hk2
        · intro j hj
          cases j with
          | zero =>
            rw [List.getElem?_cons_zero]
            intro hcon
            exact he (Option.some.inj hcon)
          | succ j' =>
            rw [List.getElem?_cons_succ]
            exact hk3 j' (by omega)

theorem jsIndexOf_map_eq {α β : Type} [DecidableEq α] [DecidableEq β]
    (g : α → β) :
    ∀ (l : List α) (x : α), x ∈ l → (∀ a ∈ l, (g a = g x ↔ a = x)) →
      jsIndexOf (l.map g) (g x) = jsIndexOf l x := by
  intro l
  induction l with
  | nil => intro x hx; cases hx
  | cons h t ih =>
    intro x hx hg
    rw [List.map_cons, jsIndexOf]
    by_cases he : h = x
    · rw [if_pos (by rw [he]), jsIndexOf, if_pos he]
    · have hgne : ¬ g h = g x := fun hgh =>
        he ((hg h (List.mem_cons_self h t)).1 hgh)
      have hx' : x ∈ t := by
        rcases List.mem_cons.1 hx with rfl | hx'
        · exact absurd rfl he
        · exact hx'
      have hrec := ih x hx' (fun a ha => hg a (List.mem_cons_of_mem h ha))
      rw [if_neg hgne, jsIndexOf, if_neg he, hrec]

theorem foldl_max_map_mono {g : ℚ → ℝ} (hg : Monotone g) :
    ∀ (t : List ℚ) (a : ℚ), (t.map g).foldl max (g a) = g (t.foldl max a) := by
  intro t
  induction t with
  | nil => intro a; rfl
  | cons b t ih =>
    intro a
    rw [List.map_cons, List.foldl_cons, List.foldl_cons, ← Monotone.map_max hg,
      ih (max a b)]

theorem jsMaxL_map_mono {g : ℚ → ℝ} (hg : Monotone g) (dq : ℚ) (dr : ℝ)
    (l : List ℚ) (hl : l ≠ []) :
    jsMaxL dr (l.map g) = g (jsMaxL dq l) := by
  cases l with
  | nil => exact absurd rfl hl
  | cons h t =>
    rw [List.map_cons, jsMaxL, jsMaxL]
    exact foldl_max_map_mono hg t h

/-- C4: in the single-output case `predict` returns 1 exactly when
`predict_proba[1] >= 0.5` and 0 otherwise; in the multiclass case `predict`
returns `margins.indexOf(max margins)`, that index is the first occurrence of
the maximum raw margin, and it coincides with the argmax (same first-
occurrence convention) of the softmax probability vector, because the
truncated softmax map is monotone and injective at the maximum. -/
theorem predict_argmax_relation :
    (∀ (fuel : ℕ) (m : XGBModel) (features : List JSNum) (c : Cache)
       (probs : List ℝ) (c' : Cache),
       m.numClasses = 1 →
       predict_proba fuel m features c = (some (.ok probs), c') →
       ∃ r, (predict fuel m features c).1 = some (.ok r) ∧
         (r = 1 ↔ (1 : ℝ) / 2 ≤ probs.getD 1 0) ∧ (r = 0 ∨ r = 1)) ∧
    (∀ (fuel : ℕ) (m : XGBModel) (features : List JSNum) (c : Cache)
       (margins : List ℚ) (c' : Cache),
       2 ≤ m.numClasses →
       predictRaw fuel m features c = (some (.ok margins), c') →
       validateFeatures m.numFeatures features = none →
       (predict fuel m features c).1 = some (.ok (argmaxOfMargins margins)) ∧
       (∃ k : ℕ, argmaxOfMargins margins = (k : ℤ) ∧
          margins[k]? = some (jsMaxL 0 margins) ∧
          ∀ j < k, margins[j]? ≠ some (jsMaxL 0 margins)) ∧
       argmaxOfMargins margins =
         jsIndexOf (softmax margins) (jsMaxL 0 (softmax margins))) := by
  constructor
  · intro fuel m features c probs c' h1 h
    obtain ⟨hval, margins, hraw, hprobs⟩ :=
      predict_proba_inv fuel m features c probs c' h
    subst hprobs
    rw [predict_eq_of_single fuel m features c margins c' h1 hval hraw]
    refine ⟨classOfProbs (probaOfMargins m margins), rfl, ?_, ?_⟩
    · unfold classOfProbs
      by_cases hle : (1 : ℝ) / 2 ≤ (probaOfMargins m margins).getD 1 0
      · rw [if_pos hle]
        exact ⟨fun _ => hle, fun _ => rfl⟩
      · rw [if_neg hle]
        constructor
        · intro h01
          exact absurd h01 (by norm_num)
        · intro hcon
          exact absurd hcon hle
    · unfold classOfProbs
      by_cases hle : (1 : ℝ) / 2 ≤ (probaOfMargins m margins).getD 1 0
      · rw [if_pos hle]
        exact .inr rfl
      · rw [if_neg hle]
        exact .inl rfl
  · intro fuel m features c margins c' h2 hraw hval
    have h1 : ¬ m.numClasses = 1 := by omega
    have hlen := predictRaw_ok_length fuel m features c margins c' hraw
    rw [if_neg h1] at hlen
    have hne : margins ≠ [] := by
      intro hnil
      rw [hnil] at hlen
      simp at hlen
      omega
    have hMmem : jsMaxL 0 margins ∈ margins := jsMaxL_mem 0 margins hne
    have hdpos : 0 < softmaxDenom margins := softmaxDenom_pos margins hne
    have hdne : softmaxDenom margins ≠ 0 := ne_of_gt hdpos
    refine ⟨?_, ?_, ?_⟩
    · rw [predict_eq_of_multi fuel m features c margins c' h1 hval hraw]
    · exact jsIndexOf_spec margins (jsMaxL 0 margins) hMmem
    · have hgmono : Monotone (fun s : ℚ =>
          expTerm (jsMaxL 0 margins) s / softmaxDenom margins) := by
        intro a b hab
        exact (div_le_div_right hdpos).2 (expTerm_monotone (jsMaxL 0 margins) hab)
      have hsm : softmax margins = margins.map (fun s : ℚ =>
          expTerm (jsMaxL 0 margins) s / softmaxDenom margins) := by
        rw [softmax_eq, if_neg hdne, List.map_map]
        rfl
      have hgiff : ∀ a ∈ margins,
          ((fun s : ℚ => expTerm (jsMaxL 0 margins) s / softmaxDenom margins) a =
           (fun s : ℚ => expTerm (jsMaxL 0 margins) s / softmaxDenom margins)
             (jsMaxL 0 margins) ↔ a = jsMaxL 0 margins) := by
        intro a ha
        constructor
        · intro hgam
          have h' : expTerm (jsMaxL 0 margins) a =
              expTerm (jsMaxL 0 margins) (jsMaxL 0 margins) := by
            field_simp [hdne] at hgam
            exact hgam
          rw [expTerm_self] at h'
          exact (expTerm_eq_one_iff (jsMaxL 0 margins) a
            (le_jsMaxL 0 margins a ha)).1 h'
        · intro ha'
          rw [ha']
      rw [argmaxOfMargins, hsm,
        jsMaxL_map_mono hgmono 0 0 margins hne,
        jsIndexOf_map_eq _ margins (jsMaxL 0 margins) hMmem hgiff]

/-- The binary clause of `predict_argmax_relation` applied to the example
model on input `[5]`. -/
theorem predict_argmax_relation_witness :
    ∃ r, (predict 2 exModel [JSNum.num 5] []).1 = some (.ok r) ∧
      (r = 1 ↔ (1 : ℝ) / 2 ≤ (probaOfMargins exModel [-(1/2)]).getD 1 0) ∧
      (r = 0 ∨ r = 1) :=
  predict_argmax_relation.1 2 exModel [JSNum.num 5] []
    (probaOfMargins exModel [-(1/2)]) [((0, [JSNum.num 5]), -1)] rfl
    (predict_proba_eq_of 2 exModel [JSNum.num 5] [] [-(1/2)]
      [((0, [JSNum.num 5]), -1)] (by decide)
      (by
        rw [predictRaw_of_traverseAll 2 exModel [JSNum.num 5] [] [-1]
          [((0, [JSNum.num 5]), -1)] (by decide),
          if_pos (show exModel.numClasses = 1 from rfl)]
        norm_num [exModel, List.sum_cons, List.sum_nil]))

end ElectronML
